import Mathlib

/-!
Verification of the nota repository's parsing pipeline and tree engine.

Text is modelled as `List Char` (the inputs of interest are ASCII).  Python
regular expressions are embedded as executable matcher functions, one per
concrete pattern appearing in the source.  Python `Node` objects (which carry
identity and mutable parent/children pointers) are modelled by an arena of
numbered records, so Python `is`-comparison becomes id equality.
-/

namespace Nota

/-- Convert a string literal to the character-list representation. -/
def s2l (s : String) : List Char := s.data

/-! ## `nota/utils/parsing.py`: the fragment scanner

`Fragment` stores the source, a start and an end offset; `eos` is the source
length (Python stores `len(source)` at construction).  `_text` is the Python
slice `source[start:end]`, which clamps to the source bounds. -/

structure Fragment where
  source : List Char
  start : Nat
  stop : Nat
deriving Repr, DecidableEq

namespace Fragment

def eos (f : Fragment) : Nat := f.source.length

/-- Python `source[start:end]` for non-negative indices. -/
def text (f : Fragment) : List Char :=
  (f.source.drop f.start).take (f.stop - f.start)

/-- `Fragment.to`: `None if offset >= self.eos else
    Fragment(self.source, offset, min(self.eos, offset + size))`. -/
def toOffset (f : Fragment) (offset : Nat) : Option Fragment :=
  if offset ≥ f.eos then none
  else some ⟨f.source, offset, min f.eos (offset + (f.stop - f.start))⟩

/-- `Fragment.shift`: `None if self.end == self.eos else
    Fragment(self.source, self.start + amount, min(self.eos, self.end + amount))`. -/
def shift (f : Fragment) (amount : Nat) : Option Fragment :=
  if f.stop = f.eos then none
  else some ⟨f.source, f.start + amount, min f.eos (f.stop + amount)⟩

end Fragment

/-- The positions of a scanner match, in absolute offsets into the source
(Python's `Match.fragment.start/.end`). -/
structure PMatch where
  s : Nat
  e : Nat
deriving Repr, DecidableEq

/-- A `Pattern` is embedded by its compiled regex's `search` behaviour on a
text slice: `none` when there is no match, otherwise the relative start/end
offsets of the first match. -/
def PSearch : Type := List Char → Option (Nat × Nat)

/-- `Pattern.recognizes`: run the regex on the fragment's text and shift the
match positions by the fragment's start. -/
def recognizes (p : PSearch) (f : Fragment) : Option PMatch :=
  match p f.text with
  | none => none
  | some (i, j) => some ⟨f.start + i, f.start + j⟩

/-- Python's `sorted` is a stable sort; insertion keeps an element before
later-inserted elements with an equal key.  `key` here is the match start. -/
def insertByStart (x : α × PMatch) : List (α × PMatch) → List (α × PMatch)
  | [] => [x]
  | y :: ys => if x.2.s ≤ y.2.s then x :: y :: ys else y :: insertByStart x ys

def sortByStart : List (α × PMatch) → List (α × PMatch)
  | [] => []
  | x :: xs => insertByStart x (sortByStart xs)

/-- The generator inside `sorted(...)`: try every pattern on the window, in
declaration order, keeping the `(name, match)` pairs that recognized. -/
def candidates (patterns : List (α × PSearch)) (f : Fragment) :
    List (α × PMatch) :=
  patterns.filterMap fun kp =>
    match recognizes kp.2 f with
    | none => none
    | some m => some (kp.1, m)

/-- The running `match_end = max(match.fragment.end, match_end)` computed
while emitting the sorted pairs, starting from `0`. -/
def maxEnd (pairs : List (α × PMatch)) : Nat :=
  pairs.foldl (fun acc km => max acc km.2.e) 0

/-- One round of `parse`'s `while` loop: search every pattern in the window,
sort the matched pairs by start offset (stably), record the furthest match
end, and emit the sorted pairs. -/
def parseRound (patterns : List (α × PSearch)) (f : Fragment) :
    List (α × PMatch) × Nat :=
  let pairs := sortByStart (candidates patterns f)
  (pairs, maxEnd pairs)

/-- The scanner loop, fuelled (the Python `while fragment:` loop need not
terminate, see the counterexample below).  Returns the emitted rounds and
whether the loop reached `fragment = None` within the given fuel. -/
def parseGo (patterns : List (α × PSearch)) (lookahead : Nat) :
    Option Fragment → Nat → List (List (α × PMatch)) × Bool
  | none, _ => ([], true)
  | some _, 0 => ([], false)
  | some f, fuel + 1 =>
    let (pairs, matchEnd) := parseRound patterns f
    let next := if matchEnd ≠ 0 then f.toOffset matchEnd else f.shift lookahead
    let rest := parseGo patterns lookahead next fuel
    (pairs :: rest.1, rest.2)

/-- `parse(patterns, text, lookahead)`: the full emitted `(name, match)`
sequence, given enough fuel. -/
def parse (patterns : List (α × PSearch)) (text : List Char)
    (lookahead : Nat) (fuel : Nat) : List (α × PMatch) :=
  (parseGo patterns lookahead (some ⟨text, 0, lookahead⟩) fuel).1.flatten

/-- Termination of the scanner on a given input: some fuel suffices for the
`while` loop to reach `fragment = None`. -/
def ParseTerminates (patterns : List (α × PSearch)) (text : List Char)
    (lookahead : Nat) : Prop :=
  ∃ fuel, (parseGo patterns lookahead (some ⟨text, 0, lookahead⟩) fuel).2 = true

/-- Index of the first character satisfying `p`, scanning left to right. -/
def firstIdx (p : Char → Bool) : List Char → Option Nat
  | [] => none
  | c :: cs => if p c then some 0 else (firstIdx p cs).map (· + 1)

/-- `re.compile("a|b").search` on a slice: the first occurrence of `a` or
`b`, matched with length one. -/
def searchAorB : PSearch := fun s =>
  (firstIdx (fun c => c == 'a' || c == 'b') s).map fun i => (i, i + 1)

/-- `re.compile("(?<=a)").search` on a slice: the zero-width position right
after the first `a` of the slice. -/
def searchAfterA : PSearch := fun s =>
  (firstIdx (fun c => c == 'a') s).map fun i => (i + 1, i + 1)

/-- `re.compile("x*").search` on a slice: a match at the very first
position, greedily consuming the leading run of `x` (possibly empty). -/
def searchXStar : PSearch := fun s =>
  some (0, (s.takeWhile fun c => c == 'x').length)

/-- The ordering property claimed of the whole emitted `(name, match)`
sequence: starts are nondecreasing and pairs sharing a start offset appear
in the declaration order of their patterns. -/
def EmittedTieOrdered (names : List String) (out : List (String × PMatch)) : Prop :=
  out.Pairwise fun x y =>
    x.2.s ≤ y.2.s ∧ (x.2.s = y.2.s → names.indexOf x.1 ≤ names.indexOf y.1)

/-- Nondecreasing match starts. -/
def startLE (x y : α × PMatch) : Prop := x.2.s ≤ y.2.s

/-- A well-behaved regex `search`: the reported relative span lies within the
searched text (true of every Python `re` pattern). -/
def SearchOK (p : PSearch) : Prop :=
  ∀ s i j, p s = some (i, j) → i ≤ j ∧ j ≤ s.length

/-- A regex whose matches always consume at least one character. -/
def SearchNonempty (p : PSearch) : Prop :=
  ∀ s i j, p s = some (i, j) → i < j ∧ j ≤ s.length

/-- Invariant on the scanner's window maintained by the `parse` loop. -/
def ScanInv (la : Nat) (f : Fragment) : Prop :=
  (f.start ≤ f.stop ∨ f.stop = f.eos) ∧ (f.stop ≤ f.eos ∨ f.start = 0) ∧
    f.start ≤ f.source.length + la

end Nota

namespace Nota

/-! ## `nota/utils/tree.py`: the `Node` model

Python `Node` objects have identity and mutable `parent`/`_children`
pointers.  They are modelled by an arena: a list of numbered records, where
a node's id is its index.  Python `is`-comparison becomes id equality, and
each mutating method becomes a function from arena to arena (`Option`-valued
when the method contains an assertion: `none` models the raised
`AssertionError`). -/

/-- Attribute values stored on nodes (strings from regex captures, integer
offsets, and Python `None`). -/
inductive AttrVal where
  | str (s : List Char)
  | nat (n : Nat)
  | null
deriving Repr, DecidableEq

/-- One `Node` object: name, attributes, optional parent id, child ids. -/
structure NodeRec where
  name : List Char
  attributes : List (List Char × AttrVal)
  parent : Option Nat
  children : List Nat
deriving Repr, DecidableEq, Inhabited

structure Arena where
  nodes : List NodeRec
deriving Repr, DecidableEq, Inhabited

namespace Arena

def size (a : Arena) : Nat := a.nodes.length

def store (a : Arena) (i : Nat) : NodeRec := (a.nodes.get? i).getD default

/-- Mutate the record of node `i` in place. -/
def upd (a : Arena) (i : Nat) (f : NodeRec → NodeRec) : Arena :=
  ⟨a.nodes.set i (f (a.store i))⟩

/-- `Node.__init__`: allocate a fresh parentless, childless node and return
its id. -/
def alloc (a : Arena) (name : List Char)
    (attrs : List (List Char × AttrVal)) : Arena × Nat :=
  (⟨a.nodes ++ [⟨name, attrs, none, []⟩]⟩, a.size)

/-- `Node.add` (also `Node.append`): `assert not node.parent`, then
`node.parent = self; self._children.append(node)`. -/
def add (a : Arena) (p c : Nat) : Option Arena :=
  if (a.store c).parent ≠ none then none
  else some (((a.upd c fun r => { r with parent := some p })).upd p
    fun r => { r with children := r.children ++ [c] })

/-- Python `list.insert` for an index with `0 ≤ i ≤ len` (at `len` it
appends, exactly as the source's explicit branch does). -/
def insertList (l : List Nat) (i : Nat) (x : Nat) : List Nat :=
  l.take i ++ x :: l.drop i

/-- `index = index if index >= 0 else len(self._children) + index`. -/
def normIndex (n : Nat) (index : Int) : Int :=
  if index ≥ 0 then index else n + index

/-- `Node.insert`: normalize a negative index, `assert` it is in bounds,
`assert not node.parent`, then link the node at that position. -/
def insertAt (a : Arena) (p : Nat) (index : Int) (c : Nat) : Option Arena :=
  if ¬ (0 ≤ normIndex (a.store p).children.length index ∧
      normIndex (a.store p).children.length index ≤
        ((a.store p).children.length : Int)) then none
  else if (a.store c).parent ≠ none then none
  else some (((a.upd c fun r => { r with parent := some p })).upd p
    fun r => { r with children := insertList r.children (normIndex (a.store p).children.length index).toNat c })

/-- `Node.remove`: `assert node.parent is self`, then unlink; Python
`list.remove` deletes the first occurrence, i.e. `List.erase`. -/
def remove (a : Arena) (p c : Nat) : Option Arena :=
  if (a.store c).parent = some p then
    some (((a.upd c fun r => { r with parent := none })).upd p
      fun r => { r with children := r.children.erase c })
  else none

/-- `Node.detach`: remove from the parent when there is one. -/
def detach (a : Arena) (n : Nat) : Option Arena :=
  match (a.store n).parent with
  | none => some a
  | some p => a.remove p n

/-- `Node.index()` with no argument: the node's position in its parent's
children (Python `list.index`, the first occurrence; in the coherent states
considered here the node is present), `None` for a parentless node. -/
def indexInParent (a : Arena) (n : Nat) : Option Nat :=
  match (a.store n).parent with
  | none => none
  | some p => some ((a.store p).children.indexOf n)

/-- `Node.copy`: builds a fresh node from the name and recursively copied
children.  Note the source never transfers `self.attributes` onto the new
node (it only rebuilds them on `self`), so the copy's attributes are empty.
Fuel-bounded; any fuel at least the subtree height is exact. -/
def copyNode : Nat → Arena → Nat → Arena × Nat
  | 0, a, n => a.alloc (a.store n).name []
  | fuel + 1, a, n =>
    let (a1, nid) := a.alloc (a.store n).name []
    let a2 := (a.store n).children.foldl
      (fun (acc : Arena) ch =>
        let (a3, cid) := copyNode fuel acc ch
        match a3.add nid cid with
        | some a4 => a4
        | none => a3)
      a1
    (a2, nid)

/-- `Node.replaceWith(nodes)`: when the node has no parent, `index()` is
`None` and the `assert self.parent` in that branch fails; otherwise each
replacement is inserted (in reverse) at the node's old position and the node
is detached. -/
def replaceWith (a : Arena) (n : Nat) (nodes : List Nat) : Option Arena :=
  match (a.store n).parent with
  | none => none
  | some p =>
    let idx := (a.store p).children.indexOf n
    match nodes.reverse.foldlM (fun acc b => acc.insertAt p (idx : Int) b) a with
    | none => none
    | some a1 => a1.detach n

/-- `Node.nextSiblings`: `children[i:]` of the parent — the slice starts at
the node itself. -/
def nextSiblings (a : Arena) (n : Nat) : List Nat :=
  match (a.store n).parent with
  | none => []
  | some p => (a.store p).children.drop ((a.store p).children.indexOf n)

/-- `Node.previousSibling`: `siblings[i-1] if i > 0 else None`. -/
def previousSibling (a : Arena) (n : Nat) : Option Nat :=
  match (a.store n).parent with
  | none => none
  | some p =>
    let sib := (a.store p).children
    let i := sib.indexOf n
    if 0 < i then sib.get? (i - 1) else none

/-- `Node.descendants`: pre-order generator, each child followed by its own
descendants.  Fuel-bounded (the Python generator diverges on a cyclic
structure). -/
def descendants (a : Arena) : Nat → Nat → List Nat
  | 0, _ => []
  | fuel + 1, n =>
    ((a.store n).children.map fun c => c :: a.descendants fuel c).flatten

end Arena

/-- The node `j`'s parent pointer, when set, targets an allocated node
whose children list contains `j` exactly once. -/
def ParentOK (a : Arena) (j : Nat) : Prop :=
  ∀ i, (a.store j).parent = some i →
    i < a.size ∧ (a.store i).children.count j = 1

instance (a : Arena) (j : Nat) : Decidable (ParentOK a j) :=
  match h : (a.store j).parent with
  | none => isTrue (by intro i hi; rw [h] at hi; cases hi)
  | some i =>
    decidable_of_iff (i < a.size ∧ (a.store i).children.count j = 1)
      (by
        constructor
        · intro hh i' hi'
          rw [h] at hi'
          cases hi'
          exact hh
        · intro hp
          exact hp i h)

/-- Parent/children coherence: every child link is mirrored by the parent
pointer, and every parented node is listed exactly once by its parent. -/
def Coherent (a : Arena) : Prop :=
  (∀ i < a.size, ∀ j ∈ (a.store i).children,
    j < a.size ∧ (a.store j).parent = some i) ∧
  (∀ j < a.size, ParentOK a j)

/-- Proper-ancestor relation following parent pointers. -/
inductive Ancestor (a : Arena) : Nat → Nat → Prop
  | parent {c p : Nat} : (a.store c).parent = some p → Ancestor a c p
  | trans {c p q : Nat} : (a.store c).parent = some p → Ancestor a p q →
      Ancestor a c q

/-- No node is its own proper ancestor. -/
def Acyclic (a : Arena) : Prop := ∀ n, ¬ Ancestor a n n

/-! ## `research/tree-patterns.py`: contexts and the Replace transform -/

/-- `MatchContext`: a scoped map from selection ids to node lists, chaining
to an optional parent context. -/
inductive MCtx where
  | mk (entries : List (Nat × List Nat)) (parent : Option MCtx)

/-- `MatchContext.get`: look up locally, then fall back to the parent. -/
def MCtx.get : MCtx → Nat → Option (List Nat)
  | .mk entries parent, id =>
    match entries.lookup id with
    | some v => some v
    | none =>
      match parent with
      | none => none
      | some ctx => ctx.get id

/-- `Replace.apply`: for each node bound to the original selection, while it
still has a parent, replace it with a copy of each node bound to the new
selection.  The source's `print("Replacing", toSExpr(parent))` raises on a
parentless node (`toSExpr(None)`), modelled as `none`.  `copyFuel` bounds the
recursion of `Node.copy`. -/
def replaceApply (copyFuel : Nat) (origId newId : Nat) (ctx : MCtx)
    (a : Arena) : Option Arena :=
  let la := (ctx.get origId).getD []
  let lb := (ctx.get newId).getD []
  la.foldlM
    (fun acc aNode =>
      if (acc.store aNode).parent = none then none
      else lb.foldlM
        (fun acc2 bNode =>
          if (acc2.store aNode).parent ≠ none then
            let (a3, cid) := Arena.copyNode copyFuel acc2 bNode
            a3.replaceWith aNode [cid]
          else some acc2)
        acc)
    a

/-- The inner step of `Replace.apply`: while `a` still has a parent, copy
`b` and replace `a` with the copy. -/
def replaceStep (copyFuel aNode : Nat) (acc2 : Arena) (bNode : Nat) :
    Option Arena :=
  if (acc2.store aNode).parent ≠ none then
    let (a3, cid) := Arena.copyNode copyFuel acc2 bNode
    a3.replaceWith aNode [cid]
  else some acc2

/-- The outer step of `Replace.apply`: fail on a detached match, else run
the inner fold over the replacement list. -/
def replaceOuter (copyFuel newId : Nat) (ctx : MCtx) (acc : Arena)
    (aNode : Nat) : Option Arena :=
  if (acc.store aNode).parent = none then none
  else ((ctx.get newId).getD []).foldlM (replaceStep copyFuel aNode) acc

/-! ## `research/tree-patterns.py`: the query engine -/

/-- Fuel-bounded glob matching; every step shortens the combined length of
string and pattern, so `length s + length p + 1` fuel is always enough. -/
def globMatchF : Nat → List Char → List Char → Bool
  | 0, _, _ => false
  | _ + 1, [], [] => true
  | fuel + 1, [], p :: ps => if p = '*' then globMatchF fuel [] ps else false
  | _ + 1, _ :: _, [] => false
  | fuel + 1, c :: cs, p :: ps =>
    if p = '*' then globMatchF fuel (c :: cs) ps || globMatchF fuel cs (p :: ps)
    else if p = '?' then globMatchF fuel cs ps
    else c = p && globMatchF fuel cs ps

/-- `fnmatch.fnmatch` on POSIX for patterns built from literal characters,
`*` and `?` (the grammar's query names; bracket classes do not occur). -/
def globMatch (s p : List Char) : Bool :=
  globMatchF (s.length + p.length + 1) s p

/-- `Query.match`: strip a `:`-qualified suffix from the node name, then
glob-match it against the query's name pattern. -/
def queryMatches (q : List Char) (a : Arena) (n : Nat) : Bool :=
  globMatch ((a.store n).name.takeWhile fun c => c ≠ ':') q

/-- The loop body of `Query.matchIter` on the descendants axis: a new group
starts when the candidate's parent differs from the previous matched node
(the source compares `child.parent != previous`, object identity). -/
def matchIterDesGo (a : Arena) (q : List Char) :
    List Nat → Nat → Option Nat → List (Nat × Nat)
  | [], _, _ => []
  | child :: rest, group, previous =>
    if queryMatches q a child then
      let g := match previous with
        | none => group
        | some pr =>
          if (a.store child).parent ≠ some pr then group + 1 else group
      (g, child) :: matchIterDesGo a q rest g (some child)
    else matchIterDesGo a q rest group previous

/-- `Query.matchIter` for `Axis.Descendants`. -/
def matchIterDescendants (a : Arena) (q : List Char) (fuel n : Nat) :
    List (Nat × Nat) :=
  matchIterDesGo a q (a.descendants fuel n) 0 none

/-- The loop body of `Query.matchIter` on the next-siblings axis: a new
group starts when the candidate's previous sibling differs from the
previous matched node. -/
def matchIterSibGo (a : Arena) (q : List Char) :
    List Nat → Nat → Option Nat → List (Nat × Nat)
  | [], _, _ => []
  | sib :: rest, group, previous =>
    if queryMatches q a sib then
      let g := match previous with
        | none => group
        | some pr =>
          if a.previousSibling sib ≠ some pr then group + 1 else group
      (g, sib) :: matchIterSibGo a q rest g (some sib)
    else matchIterSibGo a q rest group previous

/-- `Query.matchIter` for `Axis.NextSiblings`. -/
def matchIterNextSiblings (a : Arena) (q : List Char) (n : Nat) :
    List (Nat × Nat) :=
  matchIterSibGo a q (a.nextSiblings n) 0 none

/-- `Query.matchGroups`' accumulation loop over `(group, node)` pairs. -/
def matchGroupsGo : List (Nat × Nat) → Nat → List Nat → List (List Nat)
  | [], _, res => if res ≠ [] then [res] else []
  | (g, n) :: rest, group, res =>
    if g ≠ group ∧ res ≠ [] then res :: matchGroupsGo rest g [n]
    else matchGroupsGo rest g (res ++ [n])

/-- `Query.matchGroups` for a descendants-axis query. -/
def matchGroupsDescendants (a : Arena) (q : List Char) (fuel n : Nat) :
    List (List Nat) :=
  matchGroupsGo (matchIterDescendants a q fuel n) 0 []

/-! Concrete trees for the claims about the query and transform engines. -/

/-- A parent with children `[p1, p2, text, p3]` (ids 1, 2, 3, 4): p1, p2
adjacent paragraphs, a non-matching text node, then an isolated p3. -/
def c2Tree : Arena :=
  ⟨[⟨s2l "doc", [], none, [1, 2, 3, 4]⟩,
    ⟨s2l "paragraph", [], some 0, []⟩,
    ⟨s2l "paragraph", [], some 0, []⟩,
    ⟨s2l "#text", [], some 0, []⟩,
    ⟨s2l "paragraph", [], some 0, []⟩]⟩

/-- A tree for the Replace transform: node 1 (with an attribute) under
parent 0, and two replacement sources 3, 4 under node 2. -/
def c8Tree : Arena :=
  ⟨[⟨s2l "p", [], none, [1]⟩,
    ⟨s2l "a", [(s2l "k", .str (s2l "v"))], some 0, []⟩,
    ⟨s2l "q", [], none, [3, 4]⟩,
    ⟨s2l "b1", [(s2l "x", .str (s2l "1"))], some 2, []⟩,
    ⟨s2l "b2", [], some 2, []⟩]⟩

/-- The context binding selection 10 (original) to `[1]` and selection 11
(new) to `[3, 4]`. -/
def c8Ctx : MCtx := .mk [(10, [1]), (11, [3, 4])] none

/-- The arena `c8Tree` after `Replace.apply`: node 1 is gone from its
parent, replaced by the single fresh node 5 — a copy of `b1` only, whose
attributes are empty. -/
def c8After : Arena :=
  ⟨[⟨s2l "p", [], none, [5]⟩,
    ⟨s2l "a", [(s2l "k", .str (s2l "v"))], none, []⟩,
    ⟨s2l "q", [], none, [3, 4]⟩,
    ⟨s2l "b1", [(s2l "x", .str (s2l "1"))], some 2, []⟩,
    ⟨s2l "b2", [], some 2, []⟩,
    ⟨s2l "b1", [], some 0, []⟩]⟩

/-- Two fresh root nodes `a` (id 0) and `b` (id 1). -/
def c9Start : Arena := ⟨[⟨s2l "a", [], none, []⟩, ⟨s2l "b", [], none, []⟩]⟩

/-- `a.add(b)` followed by `b.add(a)`: both assertions pass. -/
def c9CyclePair : Option Arena := (c9Start.add 0 1).bind fun s => s.add 1 0

/-- The state after the two adds: `a` and `b` are each other's parent and
child — a two-node cycle. -/
def c9CycleVal : Arena :=
  ⟨[⟨s2l "a", [], some 1, [1]⟩, ⟨s2l "b", [], some 0, [0]⟩]⟩

/-- A root with two children `x` (id 1) and `y` (id 2), for the
next-siblings witness. -/
def c10Tree : Arena :=
  ⟨[⟨s2l "r", [], none, [1, 2]⟩,
    ⟨s2l "x", [], some 0, []⟩,
    ⟨s2l "y", [], some 0, []⟩]⟩

end Nota

namespace Nota

/-! ## `research/ndparser.py`: block prefixes and the block grammar

Each concrete `Prefix` regex becomes an executable matcher returning the
match end (`m.end()`; all prefixes are `^`-anchored so `m.start()` is 0)
and its named capture groups.  The inputs of interest are ASCII. -/

structure PrefMatch where
  endPos : Nat
  groups : List (List Char × List Char)
deriving Repr, DecidableEq

def isSpaceTab (c : Char) : Bool := c = ' ' || c = '\t'

def countLeading (p : Char → Bool) (s : List Char) : Nat :=
  (s.takeWhile p).length

/-- `^--[ ]*` (the `Meta` prefix). -/
def matchMeta : List Char → Option PrefMatch
  | '-' :: '-' :: rest => some ⟨2 + countLeading (· = ' ') rest, []⟩
  | _ => none

/-- `^==+[ ]*` (the `Title` prefix). -/
def matchTitle (s : List Char) : Option PrefMatch :=
  match s with
  | '=' :: '=' :: _ =>
    some ⟨countLeading (· = '=') s +
      countLeading (· = ' ') (s.drop (countLeading (· = '=') s)), []⟩
  | _ => none

/-- `^//[ ]*` (the final `Comment` prefix; the earlier `# --` assignment is
overwritten in the source). -/
def matchComment : List Char → Option PrefMatch
  | '/' :: '/' :: rest => some ⟨2 + countLeading (· = ' ') rest, []⟩
  | _ => none

/-- `^#+[ ]*` (the `Heading` prefix). -/
def matchHeading (s : List Char) : Option PrefMatch :=
  if countLeading (· = '#') s = 0 then none
  else some ⟨countLeading (· = '#') s +
    countLeading (· = ' ') (s.drop (countLeading (· = '#') s)), []⟩

/-- ```` ^```(?P<lang>.*)$ ```` (the `Fence` prefix): `.*` cannot cross a
newline and `$` must sit at the end or before a final newline. -/
def matchFence : List Char → Option PrefMatch
  | '`' :: '`' :: '`' :: rest =>
    if rest.dropWhile (· ≠ '\n') = [] ∨ rest.dropWhile (· ≠ '\n') = ['\n'] then
      some ⟨3 + (rest.takeWhile (· ≠ '\n')).length,
        [(s2l "lang", rest.takeWhile (· ≠ '\n'))]⟩
    else none
  | _ => none

/-- `^[ \t]*$` (the `Empty` prefix): only the maximal space/tab run can be
followed by `$`, since a shorter one leaves a space where end-of-line is
required. -/
def matchEmpty (s : List Char) : Option PrefMatch :=
  if s.dropWhile isSpaceTab = [] ∨ s.dropWhile isSpaceTab = ['\n'] then
    some ⟨countLeading isSpaceTab s, []⟩
  else none

/-- `^(?P<indent>[ \t]*)(?P<indented>\[(?P<state>[ xX])\][ ]*)`. -/
def matchTodoItem (s : List Char) : Option PrefMatch :=
  match s.dropWhile isSpaceTab with
  | '[' :: c :: ']' :: rest =>
    if c = ' ' ∨ c = 'x' ∨ c = 'X' then
      some ⟨countLeading isSpaceTab s + 3 + countLeading (· = ' ') rest,
        [(s2l "indent", s.takeWhile isSpaceTab),
          (s2l "indented",
            '[' :: c :: ']' :: rest.takeWhile (· = ' ')),
          (s2l "state", [c])]⟩
    else none
  | _ => none

/-- `^(?P<indent>[ \t]*)(?P<indented>(?P<number>[0-9a-zA-Z])[\)\.][ ]*)`. -/
def matchOrderedItem (s : List Char) : Option PrefMatch :=
  match s.dropWhile isSpaceTab with
  | c :: d :: rest =>
    if (c.isDigit ∨ c.isAlpha) ∧ (d = ')' ∨ d = '.') then
      some ⟨countLeading isSpaceTab s + 2 + countLeading (· = ' ') rest,
        [(s2l "indent", s.takeWhile isSpaceTab),
          (s2l "indented", c :: d :: rest.takeWhile (· = ' ')),
          (s2l "number", [c])]⟩
    else none
  | _ => none

/-- `^(?P<indent>[ \t]*)(?P<indented>(?P<bullet>[-*])[ ]*)`. -/
def matchUnorderedItem (s : List Char) : Option PrefMatch :=
  match s.dropWhile isSpaceTab with
  | b :: rest =>
    if b = '-' ∨ b = '*' then
      some ⟨countLeading isSpaceTab s + 1 + countLeading (· = ' ') rest,
        [(s2l "indent", s.takeWhile isSpaceTab),
          (s2l "indented", b :: rest.takeWhile (· = ' ')),
          (s2l "bullet", [b])]⟩
    else none
  | _ => none

/-- Whether a term parses as `([^:]|:[^:])+`: nonempty, no `::` inside, and
not ending in a lone `:`. -/
def hasDoubleColon : List Char → Bool
  | ':' :: ':' :: _ => true
  | _ :: rest => hasDoubleColon rest
  | [] => false

def defTermValid (t : List Char) : Bool :=
  ¬ t.isEmpty && ¬ hasDoubleColon t && t.getLast? ≠ some ':'

/-- After the term: `::`, then spaces, then end-of-string or a final
newline; returns the space count. -/
def defTailOK : List Char → Option Nat
  | ':' :: ':' :: rest =>
    if rest.dropWhile (· = ' ') = [] ∨ rest.dropWhile (· = ' ') = ['\n'] then
      some (countLeading (· = ' ') rest)
    else none
  | _ => none

/-- `^(?P<term>([^:]|:[^:])+)::[ ]*$`: the greedy engine takes the longest
valid term whose tail matches. -/
def defItemFind (s : List Char) : Nat → Option PrefMatch
  | 0 => none
  | i + 1 =>
    match defTailOK (s.drop (i + 1)) with
    | some sp =>
      if defTermValid (s.take (i + 1)) then
        some ⟨i + 1 + 2 + sp, [(s2l "term", s.take (i + 1))]⟩
      else defItemFind s i
    | none => defItemFind s i

def matchDefItem (s : List Char) : Option PrefMatch :=
  defItemFind s s.length

/-- The ten concrete prefixes of the grammar. -/
inductive PrefixKind where
  | meta | title | comment | heading | fence | empty
  | todoItem | orderedItem | unorderedItem | defItem
deriving Repr, DecidableEq

def prefMatch : PrefixKind → List Char → Option PrefMatch
  | .meta => matchMeta
  | .title => matchTitle
  | .comment => matchComment
  | .heading => matchHeading
  | .fence => matchFence
  | .empty => matchEmpty
  | .todoItem => matchTodoItem
  | .orderedItem => matchOrderedItem
  | .unorderedItem => matchUnorderedItem
  | .defItem => matchDefItem

/-- The `extract` rewriters attached to prefixes: `asSpaces` turns the
consumed prefix into an equal number of spaces; `DefinitionItem`'s
`lambda _: _.group()` keeps the matched text as is. -/
inductive ExtractKind where
  | asSpaces | wholeMatch
deriving Repr, DecidableEq

def prefExtract : PrefixKind → Option ExtractKind
  | .todoItem => some .asSpaces
  | .orderedItem => some .asSpaces
  | .unorderedItem => some .asSpaces
  | .defItem => some .wholeMatch
  | _ => none

structure BlockDef where
  start : PrefixKind
  stop : Option PrefixKind := none
  sequential : Bool := false
  nested : Bool := false
deriving Repr, DecidableEq

structure LineDef where
  start : PrefixKind
deriving Repr, DecidableEq

inductive GEntry where
  | block (b : BlockDef)
  | line (l : LineDef)
deriving Repr, DecidableEq

def GEntry.startKind : GEntry → PrefixKind
  | .block b => b.start
  | .line l => l.start

def emptyBlock : BlockDef := { start := .empty }

def codeBlock : BlockDef := { start := .fence, stop := some .fence }

/-- `Lines | Blocks` in its dict iteration order.  Keys first assigned
earlier in the module (as `Prefix`es or inlines) keep that earlier
position, hence `Meta` before `Title` and `Code` first among the blocks;
`UnorderdedListItem` carries the source's typo. -/
def notaBlocks : List (List Char × GEntry) :=
  [(s2l "Meta", .line ⟨.meta⟩),
    (s2l "Title", .line ⟨.title⟩),
    (s2l "Comment", .line ⟨.comment⟩),
    (s2l "Heading", .line ⟨.heading⟩),
    (s2l "Code", .block codeBlock),
    (s2l "TodoListItem", .block { start := .todoItem, sequential := true, nested := true }),
    (s2l "OrderedListItem", .block { start := .orderedItem, sequential := true, nested := true }),
    (s2l "Empty", .block emptyBlock),
    (s2l "UnorderdedListItem", .block { start := .unorderedItem, sequential := true, nested := true }),
    (s2l "DefinitionListItem", .block { start := .defItem, sequential := true })]

structure MatchedBlock where
  name : List Char
  entry : Option GEntry
  lines : List (List Char)
  startM : Option PrefMatch := none
  endM : Option PrefMatch := none
deriving Repr, DecidableEq

/-- The first line of a matched block:
`f"{b.start.extract(m)}{t}" if b.start.extract else t` with
`t = line[m.end():]`. -/
def applyExtract (pk : PrefixKind) (m : PrefMatch) (line : List Char) :
    List Char :=
  match prefExtract pk with
  | none => line.drop m.endPos
  | some .asSpaces => List.replicate m.endPos ' ' ++ line.drop m.endPos
  | some .wholeMatch => line.take m.endPos ++ line.drop m.endPos

/-- First grammar entry whose start prefix matches the line — the order of
`blocks` decides precedence. -/
def firstBlockMatch (blocks : List (List Char × GEntry)) (line : List Char) :
    Option (List Char × GEntry × PrefMatch) :=
  match blocks with
  | [] => none
  | (k, b) :: rest =>
    match prefMatch b.startKind line with
    | some m => some (k, b, m)
    | none => firstBlockMatch rest line

/-- The block-start / text-accumulation part of `parseBlocks`' loop body,
returning the blocks emitted for this line and the new current block. -/
def blockStepMatch (blocks : List (List Char × GEntry))
    (cur : Option MatchedBlock) (line : List Char) :
    List MatchedBlock × Option MatchedBlock :=
  match firstBlockMatch blocks line with
  | some (k, b, m) =>
    match b with
    | .block _ => (cur.toList, some ⟨k, some b, [applyExtract b.startKind m line], some m, none⟩)
    | .line _ => (cur.toList ++ [⟨k, some b, [applyExtract b.startKind m line], some m, none⟩], none)
  | none =>
    match cur with
    | some c =>
      if c.name = [] then ([], some { c with lines := c.lines ++ [line] })
      else ([c], some ⟨[], none, [line], none, none⟩)
    | none => ([], some ⟨[], none, [line], none, none⟩)

/-- One line of `parseBlocks`' loop: an open explicit block only tests its
end prefix (on a match the part of the line before the match — always empty
for these anchored prefixes — is appended and the block is closed);
otherwise the start prefixes are tried in order. -/
def blockStep (blocks : List (List Char × GEntry))
    (cur : Option MatchedBlock) (line : List Char) :
    List MatchedBlock × Option MatchedBlock :=
  match cur with
  | some c =>
    match c.entry with
    | some (.block bd) =>
      match bd.stop with
      | some ek =>
        match prefMatch ek line with
        | some m => ([{ c with lines := c.lines ++ [line.take 0], endM := some m }], none)
        | none => ([], some { c with lines := c.lines ++ [line] })
      | none => blockStepMatch blocks (some c) line
    | _ => blockStepMatch blocks (some c) line
  | none => blockStepMatch blocks none line

def parseBlocksGo (blocks : List (List Char × GEntry))
    (cur : Option MatchedBlock) : List (List Char) → List MatchedBlock
  | [] => cur.toList
  | line :: rest =>
    (blockStep blocks cur line).1 ++
      parseBlocksGo blocks (blockStep blocks cur line).2 rest

/-- `parseBlocks`: stream of lines to stream of matched blocks. -/
def parseBlocks (blocks : List (List Char × GEntry))
    (input : List (List Char)) : List MatchedBlock :=
  parseBlocksGo blocks none input

/-! ## `research/ndparser.py`: inline patterns and `parseInlines` -/

/-- A match of an inline pattern: absolute start/end offsets into the line
and the named capture groups. -/
structure InlMatch where
  s : Nat
  e : Nat
  groups : List (List Char × List Char)
deriving Repr, DecidableEq

/-- Attempt an inline pattern at the current position, returning the
consumed length and the capture groups. -/
def InlAt : Type := List Char → Option (Nat × List (List Char × List Char))

/-- `re.search` from a position: try the pattern at each successive offset
(none of the inline patterns looks behind the attempt position). -/
def searchGo (m : InlAt) : List Char → Nat → Option InlMatch
  | [], i =>
    match m [] with
    | some (len, gs) => some ⟨i, i + len, gs⟩
    | none => none
  | s@(_ :: rest), i =>
    match m s with
    | some (len, gs) => some ⟨i, i + len, gs⟩
    | none => searchGo m rest (i + 1)

/-- A literal delimiter such as `**`, `*`, `_`, `` ` ``, `<<`, `[`. -/
def atLit (lit : List Char) : InlAt := fun s =>
  if lit.isPrefixOf s then some (lit.length, []) else none

/-- `\]\((?P<target>[^\)]*)\)` (the `Link` end pattern). -/
def atLinkEnd : InlAt
  | ']' :: '(' :: rest =>
    if rest.dropWhile (· ≠ ')') ≠ [] then
      some (2 + (rest.takeWhile (· ≠ ')')).length + 1,
        [(s2l "target", rest.takeWhile (· ≠ ')'))])
    else none
  | _ => none

/-- `\w` (ASCII scope) together with the extra characters of the class
`[\w\d\-_]` used by `Tag`. -/
def isWordHy (c : Char) : Bool := c.isAlpha || c.isDigit || c = '_' || c = '-'

/-- `#(?P<name>[\w\d\-_]+)` (the `Tag` pattern). -/
def atTag : InlAt
  | '#' :: rest =>
    if (rest.takeWhile isWordHy).length ≠ 0 then
      some (1 + (rest.takeWhile isWordHy).length,
        [(s2l "name", rest.takeWhile isWordHy)])
    else none
  | _ => none

/-- `#{(?P<name>[^}]+)}` (the `Ref` pattern). -/
def atRef : InlAt
  | '#' :: '{' :: rest =>
    if (rest.takeWhile (· ≠ '}')).length ≠ 0 ∧
        rest.dropWhile (· ≠ '}') ≠ [] then
      some (2 + (rest.takeWhile (· ≠ '}')).length + 1,
        [(s2l "name", rest.takeWhile (· ≠ '}'))])
    else none
  | _ => none

def isEmailChar (c : Char) : Bool := c.isAlpha || c.isDigit || c = '_' || c = '.' || c = '-'

/-- `\<(?P<email>[\w.\-_]+@[\w.\-_]+)\>` (the `Email` pattern). -/
def atEmail : InlAt
  | '<' :: rest =>
    match rest.dropWhile isEmailChar with
    | '@' :: rest2 =>
      if (rest.takeWhile isEmailChar).length ≠ 0 ∧
          (rest2.takeWhile isEmailChar).length ≠ 0 ∧
          (rest2.dropWhile isEmailChar).head? = some '>' then
        some (1 + (rest.takeWhile isEmailChar).length + 1 +
            (rest2.takeWhile isEmailChar).length + 1,
          [(s2l "email",
            rest.takeWhile isEmailChar ++ '@' :: rest2.takeWhile isEmailChar)])
      else none
    | _ => none
  | _ => none

/-- The character class `[A-z]` (codes 65–122, as written in the source). -/
def isAtoz (c : Char) : Bool := 65 ≤ c.val && c.val ≤ 122

/-- `\<(?P<url>[A-z]+://[^\>]+)\>` (the `URL` pattern). -/
def atURL : InlAt
  | '<' :: rest =>
    match rest.dropWhile isAtoz with
    | ':' :: '/' :: '/' :: rest2 =>
      if (rest.takeWhile isAtoz).length ≠ 0 ∧
          (rest2.takeWhile (· ≠ '>')).length ≠ 0 ∧
          rest2.dropWhile (· ≠ '>') ≠ [] then
        some (1 + (rest.takeWhile isAtoz).length + 3 +
            (rest2.takeWhile (· ≠ '>')).length + 1,
          [(s2l "url",
            rest.takeWhile isAtoz ++ ':' :: '/' :: '/' :: rest2.takeWhile (· ≠ '>'))])
      else none
    | _ => none
  | _ => none

/-- `\d\d\d\d\-[01]\d\-[0123]\d` (the `Date` pattern). -/
def atDate : InlAt
  | a :: b :: c :: d :: '-' :: e :: f :: '-' :: g :: h :: _ =>
    if a.isDigit ∧ b.isDigit ∧ c.isDigit ∧ d.isDigit ∧
        (e = '0' ∨ e = '1') ∧ f.isDigit ∧
        (g = '0' ∨ g = '1' ∨ g = '2' ∨ g = '3') ∧ h.isDigit then
      some (10, []) else none
  | _ => none

/-- `[012]\d:[012345]\d:[012345]\d` (the `Time` pattern). -/
def atTime : InlAt
  | a :: b :: ':' :: c :: d :: ':' :: e :: f :: _ =>
    if (a = '0' ∨ a = '1' ∨ a = '2') ∧ b.isDigit ∧
        (c.val ≥ 48 ∧ c.val ≤ 53) ∧ d.isDigit ∧
        (e.val ≥ 48 ∧ e.val ≤ 53) ∧ f.isDigit then
      some (8, []) else none
  | _ => none

/-- The concrete inline patterns of the grammar. -/
inductive InlKind where
  | strong | emphasis | term | code | quoteStart | quoteEnd
  | linkStart | linkEnd | anchorStart | anchorEnd
  | tag | ref | email | url | date | time
deriving Repr, DecidableEq

def inlAtOf : InlKind → InlAt
  | .strong => atLit (s2l "**")
  | .emphasis => atLit (s2l "*")
  | .term => atLit (s2l "_")
  | .code => atLit (s2l "`")
  | .quoteStart => atLit (s2l "<<")
  | .quoteEnd => atLit (s2l ">>")
  | .linkStart => atLit (s2l "[")
  | .linkEnd => atLinkEnd
  | .anchorStart => atLit (s2l "[")
  | .anchorEnd => atLit (s2l "]")
  | .tag => atTag
  | .ref => atRef
  | .email => atEmail
  | .url => atURL
  | .date => atDate
  | .time => atTime

/-- `pattern.search(line, pos)`. -/
def inlSearch (k : InlKind) (line : List Char) (pos : Nat) : Option InlMatch :=
  searchGo (inlAtOf k) (line.drop pos) pos

/-- The `Inline` model: a start pattern and an optional end pattern.  The
`inline()` constructor never leaves `end` as `None` — a symmetric pattern
gets its own start pattern as end — so `stop` is `some` throughout the
grammar and the `if not v.end` branch of `parseInlines` is dead. -/
structure Inline where
  start : InlKind
  stop : Option InlKind
deriving Repr, DecidableEq

/-- `Microformats | Inlines` in its dict iteration order. -/
def notaInlines : List (List Char × Inline) :=
  [(s2l "Tag", ⟨.tag, some .tag⟩),
    (s2l "Ref", ⟨.ref, some .ref⟩),
    (s2l "Email", ⟨.email, some .email⟩),
    (s2l "URL", ⟨.url, some .url⟩),
    (s2l "Date", ⟨.date, some .date⟩),
    (s2l "Time", ⟨.time, some .time⟩),
    (s2l "Strong", ⟨.strong, some .strong⟩),
    (s2l "Emphasis", ⟨.emphasis, some .emphasis⟩),
    (s2l "Term", ⟨.term, some .term⟩),
    (s2l "Code", ⟨.code, some .code⟩),
    (s2l "Quote", ⟨.quoteStart, some .quoteEnd⟩),
    (s2l "Link", ⟨.linkStart, some .linkEnd⟩),
    (s2l "Anchor", ⟨.anchorStart, some .anchorEnd⟩)]

/-- `MatchedText` / `MatchedInline` as a tree. -/
inductive ITree where
  | text (t : List Char)
  | span (name : List Char) (attrs : List (List Char × List Char))
      (children : List ITree)
deriving Repr

/-- Python slice `line[a:b]` for non-negative indices. -/
def slice (l : List Char) (a b : Nat) : List Char := (l.take b).drop a

/-- `starts[closest].groupdict() | ends[closest].groupdict()`. -/
def mergeGroups (a b : List (List Char × List Char)) :
    List (List Char × List Char) :=
  (a.map fun kv =>
    match b.lookup kv.1 with
    | some v => (kv.1, v)
    | none => kv) ++
    b.filter fun kv => (a.lookup kv.1).isNone

/-- One round's candidates: for each still-active inline, a start match and
an end match with `e.end() <= n` — patterns without both are pruned. -/
def inlineCands (line : List Char) (inlines : List (List Char × Inline))
    (o n : Nat) : List (List Char × InlMatch × InlMatch) :=
  inlines.filterMap fun kv =>
    match inlSearch kv.2.start line o with
    | none => none
    | some m =>
      match kv.2.stop with
      | none => some (kv.1, m, m)
      | some ek =>
        match inlSearch ek line m.e with
        | none => none
        | some e => if e.e ≤ n then some (kv.1, m, e) else none

/-- `closest`: the first candidate with the strictly smallest start, the
threshold starting at `n`. -/
def inlineClosest (cands : List (List Char × InlMatch × InlMatch)) (n : Nat) :
    Option (List Char × InlMatch × InlMatch) :=
  (cands.foldl
    (fun (acc : Option (List Char × InlMatch × InlMatch) × Nat) c =>
      if c.2.1.s < acc.2 then (some c, c.2.1.s) else acc)
    (none, n)).1

/-- `parseInlines`, fuelled: one unit of fuel per loop iteration or
recursive descent (the loop advances `o` past a nonempty match each
round, so `2 * line.length + 2` fuel is always enough here). -/
def parseInlinesGo (line : List Char) :
    Nat → List (List Char × Inline) → Nat → Option Nat → List ITree
  | 0, _, _, _ => []
  | fuel + 1, inlines, o, endOpt =>
    let n := match endOpt with
      | none => line.length
      | some 0 => line.length
      | some k => k
    if inlines.isEmpty ∨ ¬ o < n then
      if o < n then [.text (slice line o n)] else []
    else
      let cands := inlineCands line inlines o n
      let inlines' := inlines.filter fun kv => cands.any fun c => c.1 = kv.1
      match inlineClosest cands n with
      | some (name, sm, em) =>
        (if o < sm.s then [ITree.text (slice line o sm.s)] else []) ++
          ITree.span name (mergeGroups sm.groups em.groups)
            (parseInlinesGo line fuel inlines' sm.e (some em.s)) ::
          parseInlinesGo line fuel inlines' em.e endOpt
      | none => [.text (slice line o n)]

/-- `parseInlines(line)` with the default grammar and bounds. -/
def parseInlines (line : List Char) : List ITree :=
  parseInlinesGo line (2 * line.length + 2) notaInlines 0 none

/-! ## `research/ndparser.py`: indentation and the tree builder -/

/-- `indentation` on a string: spaces count one, tabs round up to the next
tab stop (width 4, the default used by the pipeline). -/
def indentationStr : List Char → Nat → Nat
  | [], count => count
  | c :: rest, count =>
    if c = '\t' then indentationStr rest (count + (4 - count % 4))
    else if c = ' ' then indentationStr rest (count + 1)
    else count

/-- `RE_NONTAB.sub(" ", s)`: every non-tab character becomes a space. -/
def subNonTab (s : List Char) : List Char :=
  s.map fun c => if c = '\t' then c else ' '

/-- `indentation` on a `MatchedBlock`: the rounded-up average indentation
of the first four lines, each prefixed by the space-expanded `indented`
capture when the block has one; whitespace-only lines are excluded from
the sum but counted in the divisor.  (With no lines Python would divide by
zero; blocks always carry at least one line.) -/
def indentationBlock (b : MatchedBlock) : Nat :=
  let pre : List Char := match b.startM with
    | some m => subNonTab ((m.groups.lookup (s2l "indented")).getD [])
    | none => []
  let head := b.lines.take 4
  let total := (head.filter fun l => (matchEmpty l).isNone).foldl
    (fun acc l => acc + indentationStr (if pre.isEmpty then l else pre ++ l) 0) 0
  if head.length = 0 then 0 else (total + head.length - 1) / head.length

/-- `str.replace`: replace every occurrence of a nonempty pattern. -/
def replaceAll (s pat rep : List Char) (fuel : Nat) : List Char :=
  match fuel, s with
  | 0, s => s
  | _, [] => []
  | fuel + 1, c :: rest =>
    if pat ≠ [] ∧ pat.isPrefixOf (c :: rest) then
      rep ++ replaceAll ((c :: rest).drop pat.length) pat rep fuel
    else c :: replaceAll rest pat rep fuel

/-- `inlineToNode`: a `MatchedText` becomes a `#text` node; a
`MatchedInline` calls `Node(name, attrs, children)`, but `Node.__init__`
only accepts `(name, attributes)`, so Python raises `TypeError` — modelled
as `none`. -/
def inlineToNode (a : Arena) : ITree → Option (Arena × Nat)
  | .text t => some (a.alloc (s2l "#text") [(s2l "value", .str t)])
  | .span _ _ _ => none

/-- `while stack and stack[-1][0] >= ind: stack.pop()` (head is the top). -/
def popStack : List (Nat × Nat) → Nat → List (Nat × Nat)
  | [], _ => []
  | (i, nd) :: rest, ind =>
    if i ≥ ind then popStack rest ind else (i, nd) :: rest

structure PLState where
  arena : Arena
  root : Nat
  stack : List (Nat × Nat)
  node : Option Nat
deriving Repr

/-- The `start`/`end` attributes of a block node: the start match of an
anchored prefix begins at offset 0; the end offset is the end match's end
when there is one, else the start match's end. -/
def blockAttrs (b : MatchedBlock) : List (List Char × AttrVal) :=
  [(s2l "start", match b.startM with
    | some _ => .nat 0
    | none => .null),
    (s2l "end", match b.endM with
    | some m => .nat m.endPos
    | none => match b.startM with
      | some m => .nat m.endPos
      | none => .null)]

/-- The body of `parseLines`' loop for one matched block. -/
def parseLinesStep (st : PLState) (b : MatchedBlock) : Option PLState := do
  let block : Option BlockDef := match b.entry with
    | some (.block bd) => some bd
    | _ => none
  if block = some emptyBlock then
    return st
  let ind := indentationBlock b +
    (match block with
      | some bd => if bd.nested then 1 else 0
      | none => 0)
  let stack1 := popStack st.stack ind
  let parent0 : Option Nat := stack1.head?.map (·.2)
  let seq : Bool := match block with
    | some bd => bd.sequential
    | none => false
  let (arena1, stack2, parent1) ←
    if seq then do
      let parentName := replaceAll b.name (s2l "Item") [] (b.name.length + 1)
      let stackP :=
        match parent0 with
        | some pid =>
          if (st.arena.store pid).name ≠ parentName then stack1.tail else stack1
        | none => stack1
      let (a1, wid) := st.arena.alloc parentName []
      let target := match stackP.head? with
        | some t => t.2
        | none => st.root
      let a2 ← a1.add target wid
      pure (a2, (ind, wid) :: stackP, some wid)
    else
      pure (st.arena, stack1, parent0)
  let (arena2, node1) ←
    if b.name ≠ [] then do
      let (a1, nid) := arena1.alloc b.name (blockAttrs b)
      let a2 ← a1.add (parent1.getD st.root) nid
      pure (a2, some nid)
    else if st.node = none then do
      let (a1, nid) := arena1.alloc (s2l "Paragraph") (blockAttrs b)
      let a2 ← a1.add (parent1.getD st.root) nid
      pure (a2, some nid)
    else
      pure (arena1, st.node)
  let nid ← node1
  let arena3 ← (parseInlines b.lines.flatten).foldlM
    (fun (acc : Arena) it => do
      let (a1, tid) ← inlineToNode acc it
      a1.add nid tid)
    arena2
  pure { arena := arena3, root := st.root, stack := stack2, node := some nid }

/-- `parseLines`: root `Node("Nota")`, then fold the matched blocks.  A
raised exception anywhere (the `TypeError` of `inlineToNode` on a span, or
an assertion) yields `none`. -/
def parseLines (input : List (List Char)) : Option (Arena × Nat) :=
  let (a0, rootId) := (⟨[]⟩ : Arena).alloc (s2l "Nota") []
  ((parseBlocks notaBlocks input).foldlM parseLinesStep
    ⟨a0, rootId, [], none⟩).map fun st => (st.arena, st.root)

/-- A node tree extracted from the arena, for readable statements. -/
inductive PTree where
  | mk (name : List Char) (attrs : List (List Char × AttrVal))
      (children : List PTree)
deriving Repr

def toPTree (a : Arena) : Nat → Nat → PTree
  | 0, n => .mk (a.store n).name (a.store n).attributes []
  | fuel + 1, n =>
    .mk (a.store n).name (a.store n).attributes
      ((a.store n).children.map (toPTree a fuel))

mutual

/-- The concatenated `#text` contents of a tree in document order. -/
def PTree.texts : PTree → List Char
  | .mk name attrs children =>
    (if name = s2l "#text" then
      match attrs.lookup (s2l "value") with
      | some (.str s) => s
      | _ => []
    else []) ++ PTree.textsList children

def PTree.textsList : List PTree → List Char
  | [] => []
  | t :: ts => PTree.texts t ++ PTree.textsList ts

end

/-! Concrete pipeline inputs and expected outputs for the claims. -/

def textNode (t : String) : PTree :=
  .mk (s2l "#text") [(s2l "value", .str (s2l t))] []

def c3Input : List (List Char) :=
  [s2l "- item one\n", s2l "  continued\n", s2l "- item two\n"]

def itemAttrs : List (List Char × AttrVal) :=
  [(s2l "start", .nat 0), (s2l "end", .nat 2)]

/-- The tree the builder actually produces for scenario 1: the root is
`Nota`, each list item sits under its own fresh `UnorderdedList` wrapper
(the indentation pop removes the previous wrapper and the sequential branch
creates a new one unconditionally), and the continuation line lands in the
first item via the `node` variable. -/
def c3Expected : PTree :=
  .mk (s2l "Nota") []
    [.mk (s2l "UnorderdedList") []
      [.mk (s2l "UnorderdedListItem") itemAttrs
        [textNode "  item one\n", textNode "  continued\n"]],
      .mk (s2l "UnorderdedList") []
        [.mk (s2l "UnorderdedListItem") itemAttrs
          [textNode "  item two\n"]]]

def c4Input : List (List Char) :=
  [s2l "# Heading\n", s2l "\n", s2l "Some *emphasis* and a #tag.\n"]

/-- The state of `parseBlocks` right after consuming the opener
` ```py `: an open `Code` block whose first line is the opener's remainder. -/
def c7OpenBlock : MatchedBlock :=
  ⟨s2l "Code", some (.block codeBlock), [s2l "\n"],
    some ⟨5, [(s2l "lang", s2l "py")]⟩, none⟩

def c1Input : List (List Char) := [s2l "- a\n"]

/-! ## Content accounting across the pipeline (claim C1)

The tree builder only ever appends a freshly created node at the end of
the children of a node lying on the *rightmost spine* of the tree built so
far, so the pre-order (document-order) position of every `#text` node is
its creation order.  The notions below make that argument precise. -/

/-- Children respect allocation order: every child of an allocated node is
a strictly later allocated node.  All arenas built by `parseLines` satisfy
this, because a node is linked under a parent only right after its
allocation. -/
def ChildBounds (a : Arena) : Prop :=
  ∀ i < a.size, ∀ c ∈ (a.store i).children, i < c ∧ c < a.size

instance (a : Arena) : Decidable (ChildBounds a) := by
  unfold ChildBounds
  infer_instance

/-- `t` lies on the rightmost spine below `x`: the chain obtained from `x`
by repeatedly moving to the last child. -/
inductive SpineFrom (a : Arena) (x : Nat) : Nat → Prop
  | refl : SpineFrom a x x
  | step {t c : Nat} : SpineFrom a x t →
      ((a.store t).children).getLast? = some c → SpineFrom a x c

/-- `x` belongs to the subtree below `m` (reachability through children
lists). -/
inductive Reach (a : Arena) : Nat → Nat → Prop
  | refl (n : Nat) : Reach a n n
  | child {m c x : Nat} : c ∈ (a.store m).children → Reach a c x →
      Reach a m x

/-- Concatenated `#text` content below node `n`, at the given fuel. -/
def ptexts (a : Arena) (fuel n : Nat) : List Char :=
  PTree.texts (toPTree a fuel n)

/-- The text a single node contributes on its own (nonempty only for
`#text` nodes, which are always leaves here). -/
def leafTexts (name : List Char) (attrs : List (List Char × AttrVal)) :
    List Char :=
  if name = s2l "#text" then
    match attrs.lookup (s2l "value") with
    | some (.str s) => s
    | _ => []
  else []

/-- The blocks whose content reaches the tree: `parseLines` skips exactly
the blocks matched by the `Empty` grammar entry. -/
def keptBlock (b : MatchedBlock) : Bool :=
  match b.entry with
  | some (.block bd) => decide (bd ≠ emptyBlock)
  | _ => true

/-- The content a matched block carries: its stored lines, concatenated
(this is the string `parseLines` hands to `parseInlines`). -/
def blockContent (b : MatchedBlock) : List Char := b.lines.flatten

/-- Concatenated content of every block `parseBlocks` emits. -/
def allContent (input : List (List Char)) : List Char :=
  ((parseBlocks notaBlocks input).map blockContent).flatten

/-- Concatenated content of the emitted blocks that reach the tree. -/
def keptContent (input : List (List Char)) : List Char :=
  (((parseBlocks notaBlocks input).filter keptBlock).map blockContent).flatten

/-- The text a single parsed inline contributes directly. -/
def itreeText : ITree → List Char
  | .text t => t
  | .span _ _ _ => []

/-- How `parseBlocks` may transform one input line before storing it:
kept verbatim; kept with the matched start prefix consumed — removed, or
rewritten by the prefix's `extract` function; or truncated at the start
match of an end delimiter (position 0 for these anchored prefixes). -/
inductive LineKept : List Char → List Char → Prop
  | verbatim (l : List Char) : LineKept l l
  | prefixCut {l : List Char} (pk : PrefixKind) (m : PrefMatch) :
      prefMatch pk l = some m → LineKept l (applyExtract pk m l)
  | endCut {l : List Char} (pk : PrefixKind) (m : PrefMatch) :
      prefMatch pk l = some m → LineKept l (l.take 0)

/-- Well-formedness of an emitted block: anonymous (text) blocks carry no
grammar entry.  Every block `parseBlocks` emits satisfies this. -/
def WBlock (b : MatchedBlock) : Prop := b.name = [] → b.entry = none

/-- Invariant of `parseLines`' fold state: a coherent, allocation-ordered
arena; root, stack entries and the current node allocated; stack entries
and the current node on the rightmost spine; the stack (top first) an
ancestor chain; every stack entry an ancestor of (or equal to) the current
node. -/
def PLInv (st : PLState) : Prop :=
  Coherent st.arena ∧ ChildBounds st.arena ∧ st.root < st.arena.size ∧
  (∀ e ∈ st.stack, e.2 < st.arena.size ∧
    SpineFrom st.arena st.root e.2) ∧
  st.stack.Pairwise (fun x y => Ancestor st.arena x.2 y.2) ∧
  (∀ n, st.node = some n → n < st.arena.size ∧
    SpineFrom st.arena st.root n ∧
    ∀ e ∈ st.stack, e.2 = n ∨ Ancestor st.arena n e.2)

def blockOf (b : MatchedBlock) : Option BlockDef :=
  match b.entry with
  | some (.block bd) => some bd
  | _ => none

/-- The arena `parseLines` produces for the single input line `"- a\n"`
(claim C1's witness instance). -/
def c1Arena : Arena :=
  ⟨[⟨s2l "Nota", [], none, [1]⟩,
    ⟨s2l "UnorderdedList", [], some 0, [2]⟩,
    ⟨s2l "UnorderdedListItem",
      [(s2l "start", .nat 0), (s2l "end", .nat 2)], some 1, [3]⟩,
    ⟨s2l "#text", [(s2l "value", .str (s2l "  a\n"))], some 2, []⟩]⟩

/-- The inner fold of `Node.copy`: copy each child and append it under the
fresh node `nid` (a failed `add` keeps the arena of the attempted copy). -/
def copyFold (fuel nid : Nat) (acc : Arena) (l : List Nat) : Arena :=
  l.foldl (fun (acc2 : Arena) ch =>
    match (Arena.copyNode fuel acc2 ch).1.add nid
        (Arena.copyNode fuel acc2 ch).2 with
    | some a4 => a4
    | none => (Arena.copyNode fuel acc2 ch).1) acc

end Nota

-- (later definition sections are inserted above; theorems start here)

namespace Nota

/-! ## Scanner lemmas -/

theorem mem_insertByStart {x y : α × PMatch} {l : List (α × PMatch)} :
    y ∈ insertByStart x l ↔ y = x ∨ y ∈ l := by
  induction l with
  | nil => simp [insertByStart]
  | cons z zs ih =>
    simp only [insertByStart]
    split
    · simp [List.mem_cons]
    · simp [List.mem_cons, ih]
      tauto

theorem mem_sortByStart {y : α × PMatch} {l : List (α × PMatch)} :
    y ∈ sortByStart l ↔ y ∈ l := by
  induction l with
  | nil => simp [sortByStart]
  | cons z zs ih => simp [sortByStart, mem_insertByStart, ih, List.mem_cons]

theorem pairwise_insertByStart {x : α × PMatch} {l : List (α × PMatch)}
    (h : l.Pairwise startLE) : (insertByStart x l).Pairwise startLE := by
  induction l with
  | nil => simp [insertByStart]
  | cons z zs ih =>
    rw [List.pairwise_cons] at h
    simp only [insertByStart]
    split
    · rename_i hle
      refine List.Pairwise.cons ?_ (List.Pairwise.cons h.1 h.2)
      intro b hb
      rcases List.mem_cons.mp hb with rfl | hb
      · exact hle
      · exact le_trans hle (h.1 b hb)
    · rename_i hgt
      refine List.Pairwise.cons ?_ (ih h.2)
      intro b hb
      rcases mem_insertByStart.mp hb with rfl | hb
      · exact le_of_not_le hgt
      · exact h.1 b hb

theorem pairwise_sortByStart (l : List (α × PMatch)) :
    (sortByStart l).Pairwise startLE := by
  induction l with
  | nil => simp [sortByStart]
  | cons z zs ih => exact pairwise_insertByStart ih

theorem filter_insertByStart {x : α × PMatch} {l : List (α × PMatch)} {s : Nat}
    (h : l.Pairwise startLE) :
    (insertByStart x l).filter (fun km => km.2.s == s) =
      if x.2.s == s then x :: l.filter (fun km => km.2.s == s)
      else l.filter (fun km => km.2.s == s) := by
  induction l with
  | nil => cases hx : (x.2.s == s) <;> simp [insertByStart, List.filter, hx]
  | cons z zs ih =>
    rw [List.pairwise_cons] at h
    simp only [insertByStart]
    split
    · rename_i hle
      cases hx : (x.2.s == s) <;> simp [List.filter, hx]
    · rename_i hgt
      have hzx : z.2.s < x.2.s := lt_of_not_le fun hc => hgt hc
      cases hx : (x.2.s == s)
      · simp only [List.filter_cons]
        rw [ih h.2, hx]
        simp
      · have hz : (z.2.s == s) = false := by
          have h1 : x.2.s = s := by simpa using hx
          have h2 : z.2.s ≠ s := by omega
          simpa using h2
        simp only [List.filter_cons, hz]
        rw [ih h.2, hx]
        simp [hz]

theorem filter_sortByStart (l : List (α × PMatch)) (s : Nat) :
    (sortByStart l).filter (fun km => km.2.s == s) =
      l.filter (fun km => km.2.s == s) := by
  induction l with
  | nil => simp [sortByStart]
  | cons z zs ih =>
    simp only [sortByStart]
    rw [filter_insertByStart (pairwise_sortByStart zs)]
    cases hz : (z.2.s == s) <;> simp [List.filter_cons, hz, ih]

theorem foldl_maxEnd_init_le (l : List (α × PMatch)) :
    ∀ a : Nat, a ≤ l.foldl (fun acc km => max acc km.2.e) a := by
  induction l with
  | nil => intro a; simp
  | cons z zs ih =>
    intro a
    simp only [List.foldl_cons]
    exact le_trans (le_max_left _ _) (ih _)

theorem le_maxEnd_of_mem {x : α × PMatch} {l : List (α × PMatch)}
    (hx : x ∈ l) : x.2.e ≤ maxEnd l := by
  suffices h : ∀ a : Nat, x ∈ l → x.2.e ≤ l.foldl (fun acc km => max acc km.2.e) a by
    exact h 0 hx
  clear hx
  induction l with
  | nil => intro a h; cases h
  | cons z zs ih =>
    intro a h
    rcases List.mem_cons.mp h with rfl | h
    · simp only [List.foldl_cons]
      exact le_trans (le_max_right _ _) (foldl_maxEnd_init_le _ _)
    · simp only [List.foldl_cons]
      exact ih (max a z.2.e) h

theorem maxEnd_attained (l : List (α × PMatch)) :
    maxEnd l = 0 ∨ ∃ x ∈ l, maxEnd l = x.2.e := by
  suffices h : ∀ a : Nat, l.foldl (fun acc km => max acc km.2.e) a = a ∨
      ∃ x ∈ l, l.foldl (fun acc km => max acc km.2.e) a = x.2.e by
    rcases h 0 with h | ⟨x, hx, he⟩
    · exact Or.inl h
    · exact Or.inr ⟨x, hx, he⟩
  induction l with
  | nil => intro a; simp
  | cons z zs ih =>
    intro a
    simp only [List.foldl_cons]
    rcases ih (max a z.2.e) with h | ⟨x, hx, he⟩
    · rcases max_choice a z.2.e with hm | hm
      · exact Or.inl (h.trans hm)
      · exact Or.inr ⟨z, List.mem_cons_self _ _, h.trans hm⟩
    · exact Or.inr ⟨x, List.mem_cons_of_mem _ hx, he⟩

theorem recognizes_bounds {p : PSearch} (hp : SearchOK p) {f : Fragment}
    {m : PMatch} (h : recognizes p f = some m) :
    f.start ≤ m.s ∧ m.s ≤ m.e := by
  unfold recognizes at h
  rcases hs : p f.text with _ | ⟨i, j⟩
  · rw [hs] at h; cases h
  · rw [hs] at h
    cases h
    have := (hp _ _ _ hs).1
    constructor
    · exact Nat.le_add_right _ _
    · simpa using this

theorem mem_candidates {x : α × PMatch} {patterns : List (α × PSearch)}
    {f : Fragment} (hx : x ∈ candidates patterns f) :
    ∃ kp ∈ patterns, recognizes kp.2 f = some x.2 := by
  unfold candidates at hx
  rcases List.mem_filterMap.mp hx with ⟨kp, hkp, hmap⟩
  rcases hr : recognizes kp.2 f with _ | m
  · rw [hr] at hmap; cases hmap
  · rw [hr] at hmap
    cases hmap
    exact ⟨kp, hkp, hr⟩

theorem mem_parseRound_bounds {patterns : List (α × PSearch)}
    (hok : ∀ kp ∈ patterns, SearchOK kp.2) {f : Fragment} {x : α × PMatch}
    (hx : x ∈ (parseRound patterns f).1) :
    f.start ≤ x.2.s ∧ x.2.s ≤ x.2.e := by
  have hx' : x ∈ candidates patterns f := by
    unfold parseRound at hx
    exact mem_sortByStart.mp hx
  rcases mem_candidates hx' with ⟨kp, hkp, hr⟩
  exact recognizes_bounds (hok kp hkp) hr

theorem recognizes_nonempty {p : PSearch} (hp : SearchNonempty p) {f : Fragment}
    {m : PMatch} (h : recognizes p f = some m) : f.start < m.e := by
  unfold recognizes at h
  rcases hs : p f.text with _ | ⟨i, j⟩
  · rw [hs] at h; cases h
  · rw [hs] at h
    cases h
    have := (hp _ _ _ hs).1
    simp only []
    omega

theorem mem_parseRound_nonempty {patterns : List (α × PSearch)}
    (hne : ∀ kp ∈ patterns, SearchNonempty kp.2) {f : Fragment} {x : α × PMatch}
    (hx : x ∈ (parseRound patterns f).1) : f.start < x.2.e := by
  have hx' : x ∈ candidates patterns f := by
    unfold parseRound at hx
    exact mem_sortByStart.mp hx
  rcases mem_candidates hx' with ⟨kp, hkp, hr⟩
  exact recognizes_nonempty (hne kp hkp) hr

theorem parseGo_none (patterns : List (α × PSearch)) (la n : Nat) :
    parseGo patterns la none n = ([], true) := by
  cases n <;> rfl

theorem parseGo_zero (patterns : List (α × PSearch)) (la : Nat) (f : Fragment) :
    parseGo patterns la (some f) 0 = ([], false) := rfl

theorem parseGo_succ (patterns : List (α × PSearch)) (la : Nat) (f : Fragment)
    (n : Nat) :
    parseGo patterns la (some f) (n + 1) =
      ((parseRound patterns f).1 ::
          (parseGo patterns la
            (if (parseRound patterns f).2 ≠ 0 then f.toOffset (parseRound patterns f).2
              else f.shift la) n).1,
        (parseGo patterns la
            (if (parseRound patterns f).2 ≠ 0 then f.toOffset (parseRound patterns f).2
              else f.shift la) n).2) := rfl

theorem parseRound_snd (patterns : List (α × PSearch)) (f : Fragment) :
    (parseRound patterns f).2 = maxEnd (parseRound patterns f).1 := rfl

theorem parseGo_flatten_order {patterns : List (α × PSearch)}
    (hok : ∀ kp ∈ patterns, SearchOK kp.2) (la : Nat) :
    ∀ (fuel : Nat) (f : Fragment),
      ((parseGo patterns la (some f) fuel).1.flatten.Pairwise (startLE (α := α))) ∧
      (∀ x ∈ (parseGo patterns la (some f) fuel).1.flatten, f.start ≤ x.2.s) := by
  intro fuel
  induction fuel with
  | zero => intro f; simp [parseGo]
  | succ n ih =>
    intro f
    rw [parseGo_succ]
    set me := (parseRound patterns f).2 with hme
    set next := (if me ≠ 0 then f.toOffset me else f.shift la) with hnext
    have hpair : ((parseRound patterns f).1).Pairwise (startLE (α := α)) := by
      unfold parseRound
      exact pairwise_sortByStart _
    have hlow : ∀ x ∈ (parseRound patterns f).1, f.start ≤ x.2.s := by
      intro x hx; exact (mem_parseRound_bounds hok hx).1
    -- every match of this round starts no later than the next window start,
    -- and the window start never moves backwards
    have hstep : ∀ f', next = some f' →
        (f.start ≤ f'.start ∧ ∀ x ∈ (parseRound patterns f).1, x.2.s ≤ f'.start) := by
      intro f' hf'
      by_cases h0 : me = 0
      · rw [hnext, if_neg (by simpa using h0)] at hf'
        unfold Fragment.shift at hf'
        split at hf'
        · cases hf'
        · cases hf'
          refine ⟨Nat.le_add_right _ _, ?_⟩
          intro x hx
          have h1 := (mem_parseRound_bounds hok hx).2
          have h2 := le_maxEnd_of_mem hx
          rw [← parseRound_snd, ← hme] at h2
          simp only []
          omega
      · rw [hnext, if_pos (by simpa using h0)] at hf'
        unfold Fragment.toOffset at hf'
        split at hf'
        · cases hf'
        · cases hf'
          have hatt := maxEnd_attained (parseRound patterns f).1
          rw [← parseRound_snd, ← hme] at hatt
          rcases hatt with h | ⟨x, hx, hxe⟩
          · exact absurd h h0
          · refine ⟨?_, ?_⟩
            · have h1 := (mem_parseRound_bounds hok hx).1
              have h2 := (mem_parseRound_bounds hok hx).2
              simp only []
              omega
            · intro y hy
              have h1 := (mem_parseRound_bounds hok hy).2
              have h2 := le_maxEnd_of_mem hy
              rw [← parseRound_snd, ← hme] at h2
              simp only []
              omega
    rcases hn : next with _ | f'
    · simp only [parseGo_none, List.flatten_cons, List.flatten_nil, List.append_nil]
      exact ⟨hpair, hlow⟩
    · have hih := ih f'
      rcases hstep f' hn with ⟨hff', hup⟩
      simp only [List.flatten_cons]
      constructor
      · rw [List.pairwise_append]
        refine ⟨hpair, hih.1, ?_⟩
        intro x hx y hy
        have h1 := hup x hx
        have h2 := hih.2 y hy
        unfold startLE
        omega
      · intro x hx
        rcases List.mem_append.mp hx with hx | hx
        · exact hlow x hx
        · exact le_trans hff' (hih.2 x hx)

theorem scanGo_term {patterns : List (α × PSearch)}
    (hne : ∀ kp ∈ patterns, SearchNonempty kp.2) {la : Nat} (hla : 0 < la) :
    ∀ (N : Nat) (f : Fragment), ScanInv la f →
      f.source.length + la + 1 - f.start ≤ N →
      (parseGo patterns la (some f) N).2 = true := by
  intro N
  induction N with
  | zero =>
    intro f hinv hN
    exfalso
    have h3 := hinv.2.2
    omega
  | succ n ih =>
    intro f hinv hN
    rw [parseGo_succ]
    set me := (parseRound patterns f).2 with hme
    by_cases h0 : me = 0
    · rw [if_neg (by simpa using h0)]
      unfold Fragment.shift
      split
      · rw [parseGo_none]
      · rename_i hstop
        have hstarts : f.start ≤ f.stop := by
          rcases hinv.1 with h | h
          · exact h
          · exact absurd h hstop
        have hstartlen : f.start ≤ f.source.length ∨ f.start = 0 := by
          rcases hinv.2.1 with h | h
          · left
            unfold Fragment.eos at h hstop
            omega
          · right; exact h
        apply ih
        · refine ⟨?_, ?_, ?_⟩
          · simp only [Fragment.eos]
            rcases Nat.le_total (f.stop + la) f.source.length with h | h
            · left; omega
            · right; omega
          · left
            simp only [Fragment.eos]
            exact min_le_left _ _
          · simp only []
            omega
        · simp only []
          omega
    · rw [if_pos (by simpa using h0)]
      unfold Fragment.toOffset
      split
      · rw [parseGo_none]
      · rename_i hlt
        unfold Fragment.eos at hlt
        push_neg at hlt
        have hatt := maxEnd_attained (parseRound patterns f).1
        rw [← parseRound_snd, ← hme] at hatt
        rcases hatt with h | ⟨x, hx, hxe⟩
        · exact absurd h h0
        · have hgt : f.start < me := by
            have := mem_parseRound_nonempty hne hx
            omega
          apply ih
          · refine ⟨?_, ?_, ?_⟩
            · left
              simp only [Fragment.eos]
              rcases Nat.le_total (me + (f.stop - f.start)) f.source.length with h | h
              · rw [min_eq_right (by omega)]; omega
              · rw [min_eq_left (by omega)]; omega
            · left
              simp only [Fragment.eos]
              exact min_le_left _ _
            · simp only []
              omega
          · simp only []
            omega

theorem firstIdx_lt_length {p : Char → Bool} :
    ∀ {s : List Char} {k : Nat}, firstIdx p s = some k → k < s.length := by
  intro s
  induction s with
  | nil => intro k h; cases h
  | cons c cs ih =>
    intro k h
    unfold firstIdx at h
    split at h
    · cases h; simp
    · rcases hr : firstIdx p cs with _ | m
      · rw [hr] at h; cases h
      · rw [hr] at h
        simp only [Option.map_some'] at h
        cases h
        have := ih hr
        simp only [List.length_cons]
        omega

theorem searchAorB_ok : SearchOK searchAorB := by
  intro s i j h
  unfold searchAorB at h
  rcases hr : firstIdx (fun c => c == 'a' || c == 'b') s with _ | m
  · rw [hr] at h; cases h
  · rw [hr] at h
    simp only [Option.map_some'] at h
    cases h
    have := firstIdx_lt_length hr
    omega

theorem searchAorB_nonempty : SearchNonempty searchAorB := by
  intro s i j h
  unfold searchAorB at h
  rcases hr : firstIdx (fun c => c == 'a' || c == 'b') s with _ | m
  · rw [hr] at h; cases h
  · rw [hr] at h
    simp only [Option.map_some'] at h
    cases h
    have := firstIdx_lt_length hr
    omega

theorem searchAfterA_ok : SearchOK searchAfterA := by
  intro s i j h
  unfold searchAfterA at h
  rcases hr : firstIdx (fun c => c == 'a') s with _ | m
  · rw [hr] at h; cases h
  · rw [hr] at h
    simp only [Option.map_some'] at h
    cases h
    have := firstIdx_lt_length hr
    omega

/-- C5 (counterexample): with patterns `A = re("a|b")` and `B = re("(?<=a)")`
declared in this order, scanning `"ab"` emits `("A", 0..1)`, then B's
zero-width match `("B", 1..1)` found in the first window, then `("A", 1..2)`
found after the window advanced to offset 1 — so two pairs share start
offset 1 and the later-declared pattern's pair comes first, refuting the
claimed tie-break order of the emitted sequence. -/
theorem c5_counterexample :
    parse [(("A" : String), searchAorB), ("B", searchAfterA)] (s2l "ab") 1600 10 =
      [("A", ⟨0, 1⟩), ("B", ⟨1, 1⟩), ("A", ⟨1, 2⟩)] ∧
    ¬ EmittedTieOrdered ["A", "B"]
      (parse [(("A" : String), searchAorB), ("B", searchAfterA)] (s2l "ab") 1600 10) := by
  constructor
  · rfl
  · intro h
    have he : parse [(("A" : String), searchAorB), ("B", searchAfterA)] (s2l "ab") 1600 10 =
        [("A", ⟨0, 1⟩), ("B", ⟨1, 1⟩), ("A", ⟨1, 2⟩)] := rfl
    rw [he] at h
    unfold EmittedTieOrdered at h
    rw [List.pairwise_cons] at h
    rw [List.pairwise_cons] at h
    have := (h.2.1 ("A", ⟨1, 2⟩) (by simp)).2 rfl
    revert this
    decide

/-- C5 (amended): the scanner's emitted pairs have nondecreasing match start
offsets across the whole run, and within one scanning round the emitted
(stably sorted) pairs with any given start offset appear exactly in pattern
declaration order, i.e. in the order of the round's candidate list; across
round boundaries a zero-width match may defeat the declaration-order
tie-break (see the counterexample). -/
theorem c5_amended {α : Type} (patterns : List (α × PSearch)) (text : List Char)
    (la fuel : Nat) (hok : ∀ kp ∈ patterns, SearchOK kp.2) :
    (parse patterns text la fuel).Pairwise (startLE (α := α)) ∧
    ∀ (f : Fragment) (s : Nat),
      ((parseRound patterns f).1.filter fun km => km.2.s == s) =
        ((candidates patterns f).filter fun km => km.2.s == s) := by
  constructor
  · unfold parse
    exact (parseGo_flatten_order hok la fuel ⟨text, 0, la⟩).1
  · intro f s
    unfold parseRound
    exact filter_sortByStart _ _

/-- C5 (witness): the amended ordering theorem applied to the concrete
pattern list of the counterexample. -/
theorem c5_witness :
    (parse [(("A" : String), searchAorB), ("B", searchAfterA)] (s2l "ab") 1600 10).Pairwise
      (startLE (α := String)) ∧
    ∀ (f : Fragment) (s : Nat),
      ((parseRound [(("A" : String), searchAorB), ("B", searchAfterA)] f).1.filter
          fun km => km.2.s == s) =
        ((candidates [(("A" : String), searchAorB), ("B", searchAfterA)] f).filter
          fun km => km.2.s == s) :=
  c5_amended [(("A" : String), searchAorB), ("B", searchAfterA)] (s2l "ab") 1600 10
    (by
      intro kp hkp
      rcases List.mem_cons.mp hkp with rfl | hkp
      · exact searchAorB_ok
      · rcases List.mem_cons.mp hkp with rfl | hkp
        · exact searchAfterA_ok
        · cases hkp)

/-- C6 (counterexample): with the single pattern `P = re("x*")` (whose
matches may be empty) and lookahead 1, scanning `"ab"` never terminates:
after the first round the window becomes `[1, 2)` and the empty match at
offset 1 makes `to(match_end)` reproduce the same window forever. -/
theorem c6_counterexample :
    ¬ ParseTerminates [(("P" : String), searchXStar)] (s2l "ab") 1 := by
  have hloop : ∀ n, (parseGo [(("P" : String), searchXStar)] 1
      (some ⟨s2l "ab", 1, 2⟩) n).2 = false := by
    intro n
    induction n with
    | zero => rfl
    | succ m ih =>
      have hstep : (parseGo [(("P" : String), searchXStar)] 1
          (some ⟨s2l "ab", 1, 2⟩) (m + 1)).2 =
          (parseGo [(("P" : String), searchXStar)] 1
            (some ⟨s2l "ab", 1, 2⟩) m).2 := rfl
      rw [hstep, ih]
  rintro ⟨fuel, hf⟩
  cases fuel with
  | zero => cases hf
  | succ n =>
    have h0 : (parseGo [(("P" : String), searchXStar)] 1
        (some ⟨s2l "ab", 0, 1⟩) (n + 1)).2 =
        (parseGo [(("P" : String), searchXStar)] 1
          (some ⟨s2l "ab", 1, 2⟩) n).2 := rfl
    rw [h0, hloop n] at hf
    cases hf

/-- C6 (amended): provided every pattern's matches consume at least one
character and the lookahead is positive, the scanner terminates on every
finite source text: each round either ends the stream or strictly advances
the window start, by at least one in the match case and by the lookahead in
the no-match case. -/
theorem c6_amended {α : Type} (patterns : List (α × PSearch)) (text : List Char)
    (la : Nat) (hne : ∀ kp ∈ patterns, SearchNonempty kp.2) (hla : 0 < la) :
    ParseTerminates patterns text la := by
  refine ⟨text.length + la + 1, ?_⟩
  apply scanGo_term hne hla
  · exact ⟨Or.inl (Nat.zero_le _), Or.inr rfl, Nat.zero_le _⟩
  · simp

/-- C6 (witness): termination for the concrete single pattern `a|b` (whose
matches are always nonempty) on `"ab"` with lookahead 1. -/
theorem c6_witness : ParseTerminates [(("A" : String), searchAorB)] (s2l "ab") 1 :=
  c6_amended [(("A" : String), searchAorB)] (s2l "ab") 1
    (by
      intro kp hkp
      rcases List.mem_cons.mp hkp with rfl | hkp
      · exact searchAorB_nonempty
      · cases hkp)
    (by decide)

/-! ## Query and transform engine theorems -/

/-- C2: on the tree whose matching nodes p1, p2, p3 (ids 1, 2, 4) are all
direct children of one parent, with only a non-matching sibling between p2
and p3, `matchGroups` for the descendants query `"paragraph"` yields three
singleton groups, not `[[p1, p2], [p3]]`: the group breaks whenever the
candidate's parent is not the previously matched node itself, so two
matching siblings never share a group — contradicting the method's own
docstring that consecutive nodes on the axis share a group. -/
theorem c2_behavior :
    matchGroupsDescendants c2Tree (s2l "paragraph") 10 0 = [[1], [2], [4]] ∧
    matchGroupsDescendants c2Tree (s2l "paragraph") 10 0 ≠ [[1, 2], [4]] := by
  refine ⟨rfl, ?_⟩
  intro h
  rw [show matchGroupsDescendants c2Tree (s2l "paragraph") 10 0 = [[1], [2], [4]]
    from rfl] at h
  cases h

/-- C8: applying `Replace` with original bound to node 1 and new bound to
`[3, 4]` replaces node 1 by a copy of node 3 only: the first `replaceWith`
detaches node 1, so the guard `if a.parent` skips every remaining
replacement source; the copy moreover carries no attributes, since
`Node.copy` never transfers them.  The parent ends with one child, not two
fresh copies. -/
theorem c8_behavior :
    replaceApply 5 10 11 c8Ctx c8Tree = some c8After ∧
    (c8After.store 0).children = [5] ∧
    (c8After.store 5).name = s2l "b1" ∧
    (c8After.store 5).attributes = [] := ⟨rfl, rfl, rfl, rfl⟩

/-- If no node has a parent pointer, the arena is trivially acyclic. -/
theorem acyclic_of_no_parent {a : Arena}
    (h : ∀ n, (a.store n).parent = none) : Acyclic a := by
  intro n hn
  cases hn with
  | parent hp => rw [h] at hp; cases hp
  | trans hp _ => rw [h] at hp; cases hp

/-- C9 (counterexample): starting from two coherent, acyclic root nodes,
`a.add(b)` then `b.add(a)` both pass their assertions (each time the added
node is parentless), yet the result is a two-node cycle: the mutating
operations do not preserve acyclicity. -/
theorem c9_counterexample :
    Coherent c9Start ∧ Acyclic c9Start ∧
    c9CyclePair = some c9CycleVal ∧ ¬ Acyclic c9CycleVal := by
  refine ⟨?_, ?_, rfl, ?_⟩
  · constructor
    · decide
    · decide
  · apply acyclic_of_no_parent
    intro n
    unfold c9Start Arena.store
    match n with
    | 0 => rfl
    | 1 => rfl
    | n + 2 => rfl
  · intro h
    exact h 0 (.trans rfl (.parent rfl))
theorem Arena.size_upd (a : Arena) (i : Nat) (f : NodeRec → NodeRec) :
    (a.upd i f).size = a.size := by
  unfold Arena.size Arena.upd
  exact List.length_set ..

theorem Arena.store_upd_lt {a : Arena} {i : Nat} (hi : i < a.size)
    (f : NodeRec → NodeRec) (j : Nat) :
    (a.upd i f).store j = if j = i then f (a.store i) else a.store j := by
  by_cases h : j = i
  · subst h
    show ((a.nodes.set j (f (a.store j))).get? j).getD default = _
    rw [List.get?_set_eq_of_lt _ hi]
    rw [if_pos rfl]
    rfl
  · show ((a.nodes.set i (f (a.store i))).get? j).getD default = _
    rw [List.get?_set_ne _ _ (Ne.symm h)]
    rw [if_neg h]
    rfl

theorem upd2_children (a : Arena) {c p : Nat} {pv : Option Nat}
    {g : List Nat → List Nat} (hp : p < a.size) (hc : c < a.size) (j : Nat) :
    ((((a.upd c fun r => { r with parent := pv })).upd p
        fun r => { r with children := g r.children }).store j).children =
      if j = p then g (a.store p).children else (a.store j).children := by
  have hp' : p < (a.upd c fun r => { r with parent := pv }).size := by
    rw [Arena.size_upd]; exact hp
  rw [Arena.store_upd_lt hp']
  by_cases hjp : j = p
  · rw [if_pos hjp, if_pos hjp]
    rw [Arena.store_upd_lt hc]
    by_cases hpc : p = c
    · rw [if_pos hpc]
      subst hpc
      rfl
    · rw [if_neg hpc]
  · rw [if_neg hjp, if_neg hjp]
    rw [Arena.store_upd_lt hc]
    by_cases hjc : j = c
    · rw [if_pos hjc]
      subst hjc
      rfl
    · rw [if_neg hjc]

theorem upd2_parent (a : Arena) {c p : Nat} {pv : Option Nat}
    {g : List Nat → List Nat} (hp : p < a.size) (hc : c < a.size) (j : Nat) :
    ((((a.upd c fun r => { r with parent := pv })).upd p
        fun r => { r with children := g r.children }).store j).parent =
      if j = c then pv else (a.store j).parent := by
  have hp' : p < (a.upd c fun r => { r with parent := pv }).size := by
    rw [Arena.size_upd]; exact hp
  rw [Arena.store_upd_lt hp']
  by_cases hjp : j = p
  · rw [if_pos hjp]
    rw [Arena.store_upd_lt hc]
    by_cases hpc : p = c
    · rw [if_pos hpc]
      have : j = c := hjp.trans hpc
      rw [if_pos this]
    · have : ¬ j = c := by
        intro hh
        exact hpc (hjp.symm.trans hh)
      rw [if_neg hpc, if_neg this]
      subst hjp
      rfl
  · rw [if_neg hjp]
    rw [Arena.store_upd_lt hc]
    by_cases hjc : j = c
    · rw [if_pos hjc, if_pos hjc]
    · rw [if_neg hjc, if_neg hjc]

theorem upd2_size (a : Arena) (c p : Nat) (f1 f2 : NodeRec → NodeRec) :
    (((a.upd c f1)).upd p f2).size = a.size := by
  rw [Arena.size_upd, Arena.size_upd]

theorem count_insertList (l : List Nat) (k x j : Nat) :
    (Arena.insertList l k x).count j = l.count j + if x = j then 1 else 0 := by
  unfold Arena.insertList
  rw [List.count_append, List.count_cons]
  conv_rhs => rw [← List.take_append_drop k l, List.count_append]
  by_cases h : x = j
  · have hb : (x == j) = true := by simpa using h
    rw [hb, if_pos h]
    simp
    omega
  · have hb : (x == j) = false := by simpa using h
    rw [hb, if_neg h]
    simp

theorem mem_insertList {l : List Nat} {k x j : Nat} :
    j ∈ Arena.insertList l k x ↔ j = x ∨ j ∈ l := by
  unfold Arena.insertList
  constructor
  · intro h
    rcases List.mem_append.mp h with h | h
    · exact Or.inr (List.mem_of_mem_take h)
    · rcases List.mem_cons.mp h with h | h
      · exact Or.inl h
      · exact Or.inr (List.mem_of_mem_drop h)
  · intro h
    rcases h with rfl | h
    · exact List.mem_append.mpr (Or.inr (List.mem_cons_self _ _))
    · rw [← List.take_append_drop k l] at h
      rcases List.mem_append.mp h with h | h
      · exact List.mem_append.mpr (Or.inl h)
      · exact List.mem_append.mpr (Or.inr (List.mem_cons_of_mem _ h))

/-- Coherence is preserved by linking a parentless allocated node `c` under
an allocated parent `p`, for any way `g` of adding `c` once to `p`'s
children (append for `add`, positional insertion for `insert`). -/
theorem coherent_link (a : Arena) {c p : Nat} (g : List Nat → List Nat)
    (h : Coherent a) (hp : p < a.size) (hc : c < a.size)
    (hparc : (a.store c).parent = none)
    (hmemg : ∀ j, j ∈ g (a.store p).children ↔ j = c ∨ j ∈ (a.store p).children)
    (hcountg : ∀ j, (g (a.store p).children).count j =
      ((a.store p).children).count j + if j = c then 1 else 0) :
    Coherent (((a.upd c fun r => { r with parent := some p })).upd p
      fun r => { r with children := g r.children }) := by
  have hcnot : c ∉ (a.store p).children := by
    intro hmem
    have := (h.1 p hp c hmem).2
    rw [hparc] at this
    cases this
  constructor
  · intro i hi j hj
    rw [upd2_size] at hi
    rw [upd2_children a hp hc] at hj
    rw [upd2_size, upd2_parent a hp hc]
    by_cases hip : i = p
    · subst hip
      rw [if_pos rfl] at hj
      rcases (hmemg j).mp hj with rfl | hj
      · exact ⟨hc, by rw [if_pos rfl]⟩
      · have hold := h.1 i hi j hj
        have hjc : j ≠ c := by
          intro hh
          subst hh
          exact hcnot hj
        rw [if_neg hjc]
        exact hold
    · rw [if_neg hip] at hj
      have hold := h.1 i hi j hj
      have hjc : j ≠ c := by
        intro hh
        subst hh
        rw [hold.2] at hparc
        cases hparc
      rw [if_neg hjc]
      exact hold
  · intro j hj
    rw [upd2_size] at hj
    intro i hpi
    rw [upd2_parent a hp hc] at hpi
    rw [upd2_size, upd2_children a hp hc]
    by_cases hjc : j = c
    · subst hjc
      rw [if_pos rfl] at hpi
      have hip : p = i := Option.some.inj hpi
      subst hip
      refine ⟨hp, ?_⟩
      rw [if_pos rfl, hcountg j, if_pos rfl]
      have hzero : ((a.store p).children).count j = 0 := List.count_eq_zero.mpr hcnot
      omega
    · rw [if_neg hjc] at hpi
      have hold := h.2 j hj i hpi
      refine ⟨hold.1, ?_⟩
      by_cases hip : i = p
      · subst hip
        rw [if_pos rfl, hcountg j, if_neg hjc]
        exact hold.2
      · rw [if_neg hip]
        exact hold.2


/-- Dropping at the index of a member starts with that member. -/
theorem drop_indexOf_cons {l : List Nat} {n : Nat} (h : n ∈ l) :
    ∃ t, l.drop (l.indexOf n) = n :: t := by
  induction l with
  | nil => cases h
  | cons c cs ih =>
    rw [List.indexOf_cons]
    by_cases hc : c = n
    · subst hc
      simp
    · have hbe : (c == n) = false := by simpa using hc
      rw [hbe]
      simp only [cond_false]
      rcases List.mem_cons.mp h with rfl | h
      · exact absurd rfl hc
      · rcases ih h with ⟨t, ht⟩
        exact ⟨t, by simpa using ht⟩

/-- C10: `nextSiblings` of a parented node returns the parent's children
from the node's own index on (`children[i:]`), so the node itself is the
first element; consequently a next-siblings-axis query whose pattern
matches the node yields the node itself as its first match, in group 0. -/
theorem c10_theorem (a : Arena) (n p : Nat) (q : List Char)
    (hpar : (a.store n).parent = some p) (hmem : n ∈ (a.store p).children)
    (hq : queryMatches q a n = true) :
    (a.nextSiblings n).head? = some n ∧
    ∃ rest, matchIterNextSiblings a q n = (0, n) :: rest := by
  rcases drop_indexOf_cons hmem with ⟨t, ht⟩
  have hns : a.nextSiblings n = n :: t := by
    unfold Arena.nextSiblings
    rw [hpar]
    exact ht
  refine ⟨by rw [hns]; rfl, ?_⟩
  unfold matchIterNextSiblings
  rw [hns]
  unfold matchIterSibGo
  rw [hq]
  exact ⟨_, rfl⟩

/-- C10 (witness): in the concrete root-with-two-children tree, the query
`"x"` started at child 1 yields child 1 itself first. -/
theorem c10_witness :
    (c10Tree.nextSiblings 1).head? = some 1 ∧
    ∃ rest, matchIterNextSiblings c10Tree (s2l "x") 1 = (0, 1) :: rest :=
  c10_theorem c10Tree 1 0 (s2l "x") rfl (by decide) rfl

/-! ## Pipeline theorems -/

/-- C3: parsing `"- item one\n  continued\n- item two\n"` does not produce
one shared wrapper: the tree is `Nota` over two separate `UnorderdedList`
wrappers, one per item.  The continuation text block pops the wrapper off
the indentation stack, and the sequential branch creates and pushes a new
wrapper node unconditionally — the name comparison only pops, it never
reuses a matching stack-top wrapper.  (The node names also differ from the
claim's `document`/`unordered-list`/`list-item`.) -/
theorem c3_behavior :
    (parseLines c3Input).map (fun ar => toPTree ar.1 6 ar.2) =
      some c3Expected := rfl

/-- C4: parsing `"# Heading\n\nSome *emphasis* and a #tag.\n"` does not
yield the claimed tree — it yields no tree at all: the text run's
`*emphasis*` span reaches `inlineToNode`, which calls
`Node(name, attrs, children)` against the two-parameter `Node` constructor
and raises `TypeError`.  Moreover the inline pass emits no `tag` span for
the single `#tag` occurrence: `inline()` defaults the end pattern to the
start pattern, so `Tag` needs a second occurrence as its end and is pruned
(the `.\n` tail stays plain text), and the paragraph's spans were being
appended to the heading node (the `node` variable is never reset), not to
a `paragraph` node. -/
theorem c4_behavior :
    parseLines c4Input = none ∧
    parseInlines (s2l "Some *emphasis* and a #tag.\n") =
      [ITree.text (s2l "Some "),
        ITree.span (s2l "Emphasis") [] [ITree.text (s2l "emphasis")],
        ITree.text (s2l " and a #tag.\n")] := ⟨rfl, rfl⟩

/-- C7: if end of input is reached while an explicit delimited block (one
whose grammar entry has an end prefix) is still open — no remaining line
matches that end prefix — the block engine emits exactly that block,
force-closed, containing every line read since its opener. -/
theorem c7_theorem (blocks : List (List Char × GEntry)) (c : MatchedBlock)
    (bd : BlockDef) (ek : PrefixKind) (hentry : c.entry = some (.block bd))
    (hstop : bd.stop = some ek) (rest : List (List Char))
    (hnomatch : ∀ l ∈ rest, prefMatch ek l = none) :
    parseBlocksGo blocks (some c) rest = [{ c with lines := c.lines ++ rest }] := by
  induction rest generalizing c with
  | nil => simp [parseBlocksGo]
  | cons l rest ih =>
    have h1 : prefMatch ek l = none := hnomatch l (List.mem_cons_self _ _)
    have hstep : blockStep blocks (some c) l =
        ([], some { c with lines := c.lines ++ [l] }) := by
      simp only [blockStep, hentry, hstop, h1]
    show (blockStep blocks (some c) l).1 ++
        parseBlocksGo blocks (blockStep blocks (some c) l).2 rest = _
    rw [hstep]
    simp only [List.nil_append]
    rw [ih { c with lines := c.lines ++ [l] } hentry
      (fun x hx => hnomatch x (List.mem_cons_of_mem _ hx))]
    simp [List.append_assoc]

/-- C7 (witness): an unterminated fenced code block opened by
` ```py ` and followed only by the line `"let x\n"` is emitted force-closed
with every line after the opener. -/
theorem c7_witness :
    parseBlocksGo notaBlocks (some c7OpenBlock) [s2l "let x\n"] =
      [{ c7OpenBlock with lines := c7OpenBlock.lines ++ [s2l "let x\n"] }] :=
  c7_theorem notaBlocks c7OpenBlock codeBlock .fence rfl rfl [s2l "let x\n"]
    (by
      intro l hl
      rcases List.mem_cons.mp hl with rfl | h
      · rfl
      · cases h)

/-! ## C1: content accounting for the full pipeline

First the arena-level toolkit: how `alloc` and `add` act on the store, and
the id-ordering consequences of `ChildBounds`. -/

theorem Arena.alloc_size (a : Arena) (nm : List Char)
    (ats : List (List Char × AttrVal)) :
    (a.alloc nm ats).1.size = a.size + 1 := by
  show (a.nodes ++ [_]).length = _
  simp [Arena.size]

theorem Arena.alloc_store_lt {a : Arena} {j : Nat} (h : j < a.size)
    (nm : List Char) (ats : List (List Char × AttrVal)) :
    ((a.alloc nm ats).1).store j = a.store j := by
  show ((a.nodes ++ [_]).get? j).getD default = _
  rw [List.get?_append h]
  rfl

theorem Arena.alloc_store_new (a : Arena) (nm : List Char)
    (ats : List (List Char × AttrVal)) :
    ((a.alloc nm ats).1).store a.size = ⟨nm, ats, none, []⟩ := by
  show ((a.nodes ++ [(⟨nm, ats, none, []⟩ : NodeRec)]).get? a.nodes.length).getD default = _
  rw [List.get?_append_right (le_refl _)]
  simp

theorem Arena.store_ge {a : Arena} {j : Nat} (h : a.size ≤ j) :
    a.store j = default := by
  show (a.nodes.get? j).getD default = _
  rw [List.get?_eq_none.mpr h]
  rfl

/-- Destructure a successful `add`. -/
theorem add_eq_some {a : Arena} {p c : Nat} {a2 : Arena}
    (h : a.add p c = some a2) :
    (a.store c).parent = none ∧
      a2 = ((a.upd c fun r => { r with parent := some p })).upd p
        fun r => { r with children := r.children ++ [c] } := by
  unfold Arena.add at h
  by_cases hc : (a.store c).parent = none
  · rw [if_neg (fun hh => hh hc)] at h
    exact ⟨hc, (Option.some.inj h).symm⟩
  · rw [if_pos hc] at h
    cases h

theorem mem_of_getLast? {l : List Nat} {x : Nat} (h : l.getLast? = some x) :
    x ∈ l := by
  induction l with
  | nil => cases h
  | cons a l ih =>
    cases l with
    | nil =>
      rw [List.getLast?_singleton] at h
      cases h
      exact List.mem_singleton.mpr rfl
    | cons b l' =>
      rw [List.getLast?_cons_cons] at h
      exact List.mem_cons_of_mem _ (ih h)

theorem getLast?_decomp {l : List Nat} {y : Nat} (h : l.getLast? = some y) :
    ∃ l', l = l' ++ [y] := by
  induction l with
  | nil => cases h
  | cons a l ih =>
    cases l with
    | nil =>
      rw [List.getLast?_singleton] at h
      cases h
      exact ⟨[], rfl⟩
    | cons b l' =>
      rw [List.getLast?_cons_cons] at h
      obtain ⟨l'', hl⟩ := ih h
      exact ⟨a :: l'', by rw [hl]; rfl⟩

theorem SpineFrom.le {a : Arena} (hb : ChildBounds a) {x t : Nat}
    (hx : x < a.size) (h : SpineFrom a x t) : x ≤ t ∧ t < a.size := by
  induction h with
  | refl => exact ⟨le_refl _, hx⟩
  | step hs hlast ih =>
    have hmem := mem_of_getLast? hlast
    obtain ⟨h1, h2⟩ := ih
    obtain ⟨h3, h4⟩ := hb _ h2 _ hmem
    exact ⟨by omega, h4⟩

theorem parent_lt {a : Arena} (hco : Coherent a) (hb : ChildBounds a)
    {t p : Nat} (ht : t < a.size) (h : (a.store t).parent = some p) :
    p < t ∧ p < a.size := by
  obtain ⟨hps, hcnt⟩ := hco.2 t ht p h
  have hmem : t ∈ (a.store p).children := by
    have hpos : 0 < (a.store p).children.count t := by omega
    exact List.count_pos_iff.mp hpos
  exact ⟨(hb p hps t hmem).1, hps⟩

theorem ancestor_lt {a : Arena} (hco : Coherent a) (hb : ChildBounds a) :
    ∀ {t y : Nat}, Ancestor a t y → t < a.size → y < t ∧ y < a.size := by
  intro t y h
  induction h with
  | parent hp => intro ht; exact parent_lt hco hb ht hp
  | trans hp h2 ih =>
    intro ht
    obtain ⟨h1, h2'⟩ := parent_lt hco hb ht hp
    obtain ⟨h3, h4⟩ := ih h2'
    exact ⟨by omega, h4⟩

theorem ancestor_trans {a : Arena} {x y z : Nat}
    (h1 : Ancestor a x y) (h2 : Ancestor a y z) : Ancestor a x z := by
  induction h1 generalizing z with
  | parent hp => exact .trans hp h2
  | trans hp _ ih => exact .trans hp (ih h2)

theorem ancestor_snoc {a : Arena} {x y z : Nat}
    (h1 : Ancestor a x y) (h2 : (a.store y).parent = some z) :
    Ancestor a x z :=
  ancestor_trans h1 (.parent h2)

/-- Every node of a subtree is reached by the parent chain: a reached node
is the subtree root itself or has it as a proper ancestor. -/
theorem reach_to_ancestor {a : Arena} (hco : Coherent a) :
    ∀ {c x : Nat}, Reach a c x → c < a.size → x = c ∨ Ancestor a x c := by
  intro c x h
  induction h with
  | refl n => intro _; exact Or.inl rfl
  | child hmem h2 ih =>
    intro hm
    rename_i m c' x'
    obtain ⟨hcs, hpc⟩ := hco.1 m hm c' hmem
    rcases ih hcs with rfl | hanc
    · exact Or.inr (.parent hpc)
    · exact Or.inr (ancestor_snoc hanc hpc)

theorem spineFrom_last_inv {a : Arena} {x t : Nat} (h : SpineFrom a x t)
    (hne : t ≠ x) :
    ∃ z, SpineFrom a x z ∧ ((a.store z).children).getLast? = some t := by
  cases h with
  | refl => exact absurd rfl hne
  | step hs hlast => exact ⟨_, hs, hlast⟩

/-- A proper ancestor of a node on the rightmost spine below `y` is itself
on that spine or an ancestor of `y`. -/
theorem ancestor_into_chain {a : Arena} (hco : Coherent a)
    (hb : ChildBounds a) {y t : Nat} (hy : y < a.size)
    (h : SpineFrom a y t) :
    ∀ {w : Nat}, Ancestor a t w → SpineFrom a y w ∨ Ancestor a y w := by
  induction h with
  | refl => intro w hw; exact Or.inr hw
  | step hs hlast ih =>
    intro w hw
    rename_i z t'
    have hzsz : z < a.size := (SpineFrom.le hb hy hs).2
    have hmem : t' ∈ (a.store z).children := mem_of_getLast? hlast
    have hpar : (a.store t').parent = some z := (hco.1 z hzsz t' hmem).2
    cases hw with
    | parent hp =>
      have hzw := hpar.symm.trans hp
      injection hzw with hzw
      subst hzw
      exact Or.inl hs
    | trans hp h2 =>
      have hzw := hpar.symm.trans hp
      injection hzw with hzw
      subst hzw
      rcases ih h2 with h3 | h3
      · exact Or.inl h3
      · exact Or.inr h3

/-- Sibling subtrees avoid the spine through the last child: a non-last
child of a spine node cannot reach any node of the spine continuing
through the last child. -/
theorem sibling_not_reach {a : Arena} (hco : Coherent a)
    (hb : ChildBounds a) {s y c t : Nat} (hs : s < a.size)
    (hlast : ((a.store s).children).getLast? = some y)
    (hc : c ∈ (a.store s).children) (hne : c ≠ y)
    (hchain : SpineFrom a y t) : ¬ Reach a c t := by
  intro hr
  have hcs : c < a.size := (hb s hs c hc).2
  have hymem : y ∈ (a.store s).children := mem_of_getLast? hlast
  have hysz : y < a.size := (hb s hs y hymem).2
  have hsy : s < y := (hb s hs y hymem).1
  have hsc : s < c := (hb s hs c hc).1
  have hpc : (a.store c).parent = some s := (hco.1 s hs c hc).2
  have hpy : (a.store y).parent = some s := (hco.1 s hs y hymem).2
  rcases reach_to_ancestor hco hr hcs with rfl | hanc
  · -- the reached node is `c` itself, i.e. `c` lies on the chain from `y`
    by_cases hty : t = y
    · exact hne hty
    · obtain ⟨z, hz, hzl⟩ := spineFrom_last_inv hchain hty
      have hzsz : z < a.size := (SpineFrom.le hb hysz hz).2
      have hyz : y ≤ z := (SpineFrom.le hb hysz hz).1
      have hzt : (a.store t).parent = some z :=
        (hco.1 z hzsz t (mem_of_getLast? hzl)).2
      have hsz2 := hpc.symm.trans hzt
      injection hsz2 with hsz2
      omega
  · rcases ancestor_into_chain hco hb hysz hchain hanc with h2 | h2
    · by_cases hcy : c = y
      · exact hne hcy
      · obtain ⟨z, hz, hzl⟩ := spineFrom_last_inv h2 (fun hh => hcy hh)
        have hzsz : z < a.size := (SpineFrom.le hb hysz hz).2
        have hyz : y ≤ z := (SpineFrom.le hb hysz hz).1
        have hzt : (a.store c).parent = some z :=
          (hco.1 z hzsz c (mem_of_getLast? hzl)).2
        have hsz2 := hpc.symm.trans hzt
        injection hsz2 with hsz2
        omega
    · cases h2 with
      | parent hp =>
        have hh := hpy.symm.trans hp
        injection hh with hh
        omega
      | trans hp h3 =>
        have hh := hpy.symm.trans hp
        injection hh with hh
        subst hh
        have h4 := (ancestor_lt hco hb h3 hs).1
        omega

theorem spineFrom_head {a : Arena} {x t : Nat} (h : SpineFrom a x t) :
    x = t ∨
      ∃ y, ((a.store x).children).getLast? = some y ∧ SpineFrom a y t := by
  induction h with
  | refl => exact Or.inl rfl
  | step hs hlast ih =>
    rcases ih with rfl | ⟨y, hy, hyt⟩
    · exact Or.inr ⟨_, hlast, .refl⟩
    · exact Or.inr ⟨y, hy, .step hyt hlast⟩

theorem map_congr_mem {α β : Type} {l : List α} {f g : α → β}
    (h : ∀ x ∈ l, f x = g x) : l.map f = l.map g := by
  induction l with
  | nil => rfl
  | cons a l ih =>
    show f a :: l.map f = g a :: l.map g
    rw [h a (List.mem_cons_self a l),
      ih (fun x hx => h x (List.mem_cons_of_mem a hx))]

theorem textsList_map (a : Arena) (F : Nat) (l : List Nat) :
    PTree.textsList (l.map (toPTree a F)) = (l.map (ptexts a F)).flatten := by
  induction l with
  | nil => rfl
  | cons c l ih =>
    show PTree.texts (toPTree a F c) ++ PTree.textsList (l.map (toPTree a F)) = _
    rw [ih]
    rfl

theorem ptexts_zero (a : Arena) (n : Nat) :
    ptexts a 0 n = leafTexts (a.store n).name (a.store n).attributes := by
  show PTree.texts (PTree.mk (a.store n).name (a.store n).attributes []) = _
  rw [PTree.texts, PTree.textsList, List.append_nil]
  rfl

theorem ptexts_succ (a : Arena) (F n : Nat) :
    ptexts a (F + 1) n =
      leafTexts (a.store n).name (a.store n).attributes ++
        ((a.store n).children.map (ptexts a F)).flatten := by
  show PTree.texts (PTree.mk (a.store n).name (a.store n).attributes
      ((a.store n).children.map (toPTree a F))) = _
  rw [PTree.texts, textsList_map]
  rfl

theorem ptexts_leaf {a : Arena} {n : Nat} {nm : List Char}
    {ats : List (List Char × AttrVal)} {pv : Option Nat}
    (h : a.store n = ⟨nm, ats, pv, []⟩) :
    ∀ F, ptexts a F n = leafTexts nm ats := by
  intro F
  cases F with
  | zero => rw [ptexts_zero, h]
  | succ F =>
    rw [ptexts_succ, h]
    simp

/-- Nodes whose subtree avoids the modified spine node are unaffected by
the append. -/
theorem toPTree_untouched {a a2 : Arena} {t nid : Nat}
    (hb : ChildBounds a) (hsz : a.size ≤ nid)
    (hstore : ∀ j, j ≠ t → j ≠ nid → a2.store j = a.store j) :
    ∀ F m, m < a.size → ¬ Reach a m t → toPTree a2 F m = toPTree a F m := by
  intro F
  induction F with
  | zero =>
    intro m hm hr
    have hmt : m ≠ t := by
      intro h
      subst h
      exact hr (Reach.refl m)
    show PTree.mk (a2.store m).name (a2.store m).attributes [] =
      PTree.mk (a.store m).name (a.store m).attributes []
    rw [hstore m hmt (by omega)]
  | succ F ih =>
    intro m hm hr
    have hmt : m ≠ t := by
      intro h
      subst h
      exact hr (Reach.refl m)
    have hst : a2.store m = a.store m := hstore m hmt (by omega)
    show PTree.mk (a2.store m).name (a2.store m).attributes
        ((a2.store m).children.map (toPTree a2 F)) = _
    rw [hst]
    show PTree.mk _ _ _ = PTree.mk _ _ _
    congr 1
    apply map_congr_mem
    intro c hcmem
    exact ih c (hb m hm c hcmem).2 (fun h2 => hr (Reach.child hcmem h2))

theorem spineFrom_store_eq {a a2 : Arena} (hb : ChildBounds a) {r s : Nat}
    (hr : r < a.size) (h : SpineFrom a r s) :
    (∀ x, x < s → a2.store x = a.store x) → SpineFrom a2 r s := by
  induction h with
  | refl => intro _; exact .refl
  | step hs hlast ih =>
    intro heq
    rename_i z c
    have hzsz : z < a.size := (SpineFrom.le hb hr hs).2
    have hzc : z < c := (hb z hzsz c (mem_of_getLast? hlast)).1
    refine .step (ih fun x hx => heq x (by omega)) ?_
    rw [heq z hzc]
    exact hlast

theorem ancestor_parent_eq {a a2 : Arena} (hco : Coherent a)
    (hb : ChildBounds a)
    (heq : ∀ j, j < a.size → (a2.store j).parent = (a.store j).parent) :
    ∀ {x y : Nat}, Ancestor a x y → x < a.size → Ancestor a2 x y := by
  intro x y h
  induction h with
  | parent hp => intro hx; exact .parent ((heq _ hx).trans hp)
  | trans hp h2 ih =>
    intro hx
    exact .trans ((heq _ hx).trans hp) (ih (parent_lt hco hb hx hp).2)

theorem coherent_alloc {a : Arena} (h : Coherent a) (nm : List Char)
    (ats : List (List Char × AttrVal)) : Coherent ((a.alloc nm ats).1) := by
  have hsz := Arena.alloc_size a nm ats
  constructor
  · intro i hi j hj
    by_cases hlt : i < a.size
    · rw [Arena.alloc_store_lt hlt] at hj
      obtain ⟨h1, h2⟩ := h.1 i hlt j hj
      refine ⟨by omega, ?_⟩
      rw [Arena.alloc_store_lt h1]
      exact h2
    · have hieq : i = a.size := by omega
      subst hieq
      rw [Arena.alloc_store_new] at hj
      exact absurd hj (List.not_mem_nil j)
  · intro j hj
    intro i hpar
    by_cases hlt : j < a.size
    · rw [Arena.alloc_store_lt hlt] at hpar
      obtain ⟨h1, h2⟩ := h.2 j hlt i hpar
      refine ⟨by omega, ?_⟩
      rw [Arena.alloc_store_lt h1]
      exact h2
    · have hjeq : j = a.size := by omega
      subst hjeq
      rw [Arena.alloc_store_new] at hpar
      exact Option.noConfusion hpar

theorem childBounds_alloc {a : Arena} (h : ChildBounds a) (nm : List Char)
    (ats : List (List Char × AttrVal)) :
    ChildBounds ((a.alloc nm ats).1) := by
  have hsz := Arena.alloc_size a nm ats
  intro i hi c hc
  by_cases hlt : i < a.size
  · rw [Arena.alloc_store_lt hlt] at hc
    obtain ⟨h1, h2⟩ := h i hlt c hc
    omega
  · have hieq : i = a.size := by omega
    subst hieq
    rw [Arena.alloc_store_new] at hc
    exact absurd hc (List.not_mem_nil c)

/-- Appending one fresh node under a node `t` of the rightmost spine
extends the document-order text content at its end, as seen from any node
`x` of the spine above `t`. -/
theorem append_spine_texts {a a2 : Arena} {t nid : Nat}
    (hco : Coherent a) (hb : ChildBounds a)
    (hnid : nid = a.size) {nm : List Char}
    {ats : List (List Char × AttrVal)}
    (hstore : ∀ j, j ≠ t → j ≠ nid → a2.store j = a.store j)
    (hstoret : a2.store t =
      { a.store t with children := (a.store t).children ++ [nid] })
    (hstoren : a2.store nid = ⟨nm, ats, some t, []⟩) :
    ∀ F x, SpineFrom a x t → x < a.size → a.size + 1 ≤ F + x →
      ptexts a2 F x = ptexts a F x ++ leafTexts nm ats := by
  intro F
  induction F with
  | zero => intro x _ hx hF; omega
  | succ F ih =>
    intro x hsp hx hF
    rcases spineFrom_head hsp with rfl | ⟨y, hy, hyt⟩
    · -- the spine node is `x` itself
      rw [ptexts_succ, ptexts_succ, hstoret]
      have hold : (a.store x).children.map (ptexts a2 F) =
          (a.store x).children.map (ptexts a F) := by
        apply map_congr_mem
        intro c hc
        have hcb := hb x hx c hc
        have hnr : ¬ Reach a c x := by
          intro hr
          rcases reach_to_ancestor hco hr hcb.2 with rfl | hanc
          · omega
          · have := (ancestor_lt hco hb hanc hx).1
            omega
        show PTree.texts (toPTree a2 F c) = PTree.texts (toPTree a F c)
        rw [toPTree_untouched hb (le_of_eq hnid.symm) hstore F c hcb.2 hnr]
      show leafTexts (a.store x).name (a.store x).attributes ++
          (((a.store x).children ++ [nid]).map (ptexts a2 F)).flatten =
        leafTexts (a.store x).name (a.store x).attributes ++
          ((a.store x).children.map (ptexts a F)).flatten ++ leafTexts nm ats
      rw [List.map_append, List.flatten_append, hold, List.append_assoc]
      congr 1
      congr 1
      show ([ptexts a2 F nid]).flatten = leafTexts nm ats
      rw [ptexts_leaf hstoren F]
      simp
    · -- descend to the last child `y`
      have hymem := mem_of_getLast? hy
      have hxy : x < y := (hb x hx y hymem).1
      have hysz : y < a.size := (hb x hx y hymem).2
      have hxt : x ≠ t := by
        intro hh
        subst hh
        have := (SpineFrom.le hb hysz hyt).1
        omega
      have hxst : a2.store x = a.store x := hstore x hxt (by omega)
      rw [ptexts_succ, ptexts_succ, hxst, List.append_assoc]
      congr 1
      obtain ⟨init, hinit⟩ := getLast?_decomp hy
      have hpy : (a.store y).parent = some x := (hco.1 x hx y hymem).2
      have hcount : (a.store x).children.count y = 1 :=
        ((hco.2 y hysz) x hpy).2
      have hc2 : (a.store x).children.count y = init.count y + 1 := by
        rw [hinit, List.count_append]
        simp
      have hynotinit : y ∉ init := by
        intro hmem
        have h1 : 0 < init.count y := List.count_pos_iff.mpr hmem
        omega
      rw [hinit, List.map_append, List.map_append, List.flatten_append,
        List.flatten_append]
      have hinitmap : init.map (ptexts a2 F) = init.map (ptexts a F) := by
        apply map_congr_mem
        intro c hc
        have hcmem : c ∈ (a.store x).children := by
          rw [hinit]
          exact List.mem_append.mpr (Or.inl hc)
        have hcne : c ≠ y := fun hh => hynotinit (hh ▸ hc)
        have hylast : ((a.store x).children).getLast? = some y := hy
        have hnr := sibling_not_reach hco hb hx hylast hcmem hcne hyt
        show PTree.texts (toPTree a2 F c) = PTree.texts (toPTree a F c)
        rw [toPTree_untouched hb (le_of_eq hnid.symm) hstore F c
          (hb x hx c hcmem).2 hnr]
      rw [hinitmap, List.append_assoc]
      congr 1
      show ([ptexts a2 F y]).flatten = ([ptexts a F y]).flatten ++ leafTexts nm ats
      have hihy : ptexts a2 F y = ptexts a F y ++ leafTexts nm ats :=
        ih y hyt hysz (by omega)
      rw [List.flatten, List.flatten, hihy]
      simp

/-- The combined effect of allocating a node and `add`-ing it under a node
`t` of the rightmost spine: the structural invariants are preserved, the
spine extends to the new node, spine membership survives for `t` and its
ancestors, parent pointers of old nodes are untouched, and the document
text grows at its end by the new node's own text. -/
theorem alloc_add_spine {a : Arena} (hco : Coherent a) (hb : ChildBounds a)
    {r t : Nat} (hr : r < a.size) (hsp : SpineFrom a r t)
    (nm : List Char) (ats : List (List Char × AttrVal)) {a2 : Arena}
    (hadd : ((a.alloc nm ats).1).add t (a.alloc nm ats).2 = some a2) :
    Coherent a2 ∧ ChildBounds a2 ∧ a2.size = a.size + 1 ∧
      (a2.store a.size).parent = some t ∧
      (∀ j, j < a.size → (a2.store j).parent = (a.store j).parent) ∧
      SpineFrom a2 r a.size ∧
      (∀ s, SpineFrom a r s → s = t ∨ Ancestor a t s → SpineFrom a2 r s) ∧
      (∀ F, a.size + 1 ≤ F + r →
        ptexts a2 F r = ptexts a F r ++ leafTexts nm ats) := by
  have htsz : t < a.size := (SpineFrom.le hb hr hsp).2
  obtain ⟨hpar1, ha2⟩ := add_eq_some hadd
  have hnid : (a.alloc nm ats).2 = a.size := rfl
  rw [hnid] at ha2
  have ha1sz : (a.alloc nm ats).1.size = a.size + 1 := Arena.alloc_size a nm ats
  have hsz1 : t <
      ((a.alloc nm ats).1.upd a.size fun r => { r with parent := some t }).size := by
    rw [Arena.size_upd]
    omega
  have hna1 : a.size < (a.alloc nm ats).1.size := by omega
  have hstoret : a2.store t =
      { a.store t with children := (a.store t).children ++ [a.size] } := by
    rw [ha2, Arena.store_upd_lt hsz1, if_pos rfl, Arena.store_upd_lt hna1,
      if_neg (by omega), Arena.alloc_store_lt htsz]
  have hstoren : a2.store a.size = ⟨nm, ats, some t, []⟩ := by
    rw [ha2, Arena.store_upd_lt hsz1, if_neg (by omega),
      Arena.store_upd_lt hna1, if_pos rfl, Arena.alloc_store_new]
  have hstore : ∀ j, j ≠ t → j ≠ a.size → a2.store j = a.store j := by
    intro j hjt hjn
    rw [ha2, Arena.store_upd_lt hsz1, if_neg hjt, Arena.store_upd_lt hna1,
      if_neg hjn]
    by_cases hlt : j < a.size
    · exact Arena.alloc_store_lt hlt nm ats
    · have hge1 : (a.alloc nm ats).1.store j = default :=
        Arena.store_ge (by rw [ha1sz]; omega)
      have hge2 : a.store j = default := Arena.store_ge (by omega)
      rw [hge1, hge2]
  have hsz2 : a2.size = a.size + 1 := by
    rw [ha2, upd2_size, ha1sz]
  have hco1 : Coherent (a.alloc nm ats).1 := coherent_alloc hco nm ats
  have hta1 : t < (a.alloc nm ats).1.size := by omega
  have hco2 : Coherent a2 := by
    rw [ha2]
    apply coherent_link (a.alloc nm ats).1 (fun l => l ++ [a.size]) hco1 hta1
      hna1
    · rw [Arena.alloc_store_new]
    · intro j
      simp [List.mem_append, or_comm]
    · intro j
      rw [List.count_append]
      by_cases h : j = a.size
      · subst h
        simp
      · rw [if_neg h]
        have hb' : (a.size == j) = false := by
          simpa using fun hh => h hh.symm
        simp [List.count_cons, hb']
  have hb2 : ChildBounds a2 := by
    intro i hi c hc
    rw [hsz2] at hi
    by_cases hit : i = t
    · subst hit
      rw [hstoret] at hc
      rcases List.mem_append.mp hc with h1 | h1
      · have := hb i htsz c h1
        omega
      · rw [List.mem_singleton] at h1
        subst h1
        omega
    · by_cases hin : i = a.size
      · subst hin
        rw [hstoren] at hc
        exact absurd hc (List.not_mem_nil c)
      · rw [hstore i hit hin] at hc
        have hisz : i < a.size := by omega
        have := hb i hisz c hc
        omega
  have hpeq : ∀ j, j < a.size → (a2.store j).parent = (a.store j).parent := by
    intro j hj
    by_cases hjt : j = t
    · subst hjt
      rw [hstoret]
    · rw [hstore j hjt (by omega)]
  have hspt : SpineFrom a2 r t := by
    apply spineFrom_store_eq hb hr hsp
    intro x hx
    exact hstore x (by omega) (by omega)
  have hspnew : SpineFrom a2 r a.size := by
    refine .step hspt ?_
    rw [hstoret]
    show ((a.store t).children ++ [a.size]).getLast? = some a.size
    rw [List.getLast?_concat]
  have hsppres : ∀ s, SpineFrom a r s → s = t ∨ Ancestor a t s →
      SpineFrom a2 r s := by
    intro s hs hcase
    rcases hcase with rfl | hanc
    · exact hspt
    · have hst : s < t := (ancestor_lt hco hb hanc htsz).1
      apply spineFrom_store_eq hb hr hs
      intro x hx
      exact hstore x (by omega) (by omega)
  have htexts : ∀ F, a.size + 1 ≤ F + r →
      ptexts a2 F r = ptexts a F r ++ leafTexts nm ats := by
    intro F hF
    exact append_spine_texts hco hb rfl hstore hstoret hstoren F r hsp hr hF
  exact ⟨hco2, hb2, hsz2, by rw [hstoren], hpeq, hspnew, hsppres, htexts⟩

theorem slice_all (c : List Char) : slice c 0 c.length = c := by
  unfold slice
  rw [List.take_length, List.drop_zero]

theorem parseInlines_cases (c : List Char) :
    (c = [] ∧ parseInlines c = []) ∨ parseInlines c = [ITree.text c] ∨
      ∃ pre nm gs sub rest,
        parseInlines c = pre ++ ITree.span nm gs sub :: rest := by
  by_cases hc : c = []
  · subst hc
    exact Or.inl ⟨rfl, rfl⟩
  · have h0 : 0 < c.length := List.length_pos.mpr hc
    have hunf : parseInlines c =
        parseInlinesGo c (2 * c.length + 1 + 1) notaInlines 0 none := rfl
    rw [hunf]
    simp only [parseInlinesGo]
    rw [if_neg (by simp [notaInlines, h0])]
    split
    · rename_i p hcl
      exact Or.inr (Or.inr ⟨_, _, _, _, _, rfl⟩)
    · refine Or.inr (Or.inl ?_)
      rw [slice_all]

theorem foldlM_cons_option {α σ : Type} (f : σ → α → Option σ) (s : σ)
    (x : α) (l : List α) :
    List.foldlM f s (x :: l) =
      (f s x).bind fun s2 => List.foldlM f s2 l := by
  show (f s x).bind _ = _
  rfl

theorem foldlM_singleton_option {α σ : Type} (f : σ → α → Option σ) (s : σ)
    (x : α) : List.foldlM f s [x] = f s x := by
  rw [foldlM_cons_option]
  cases f s x with
  | none => rfl
  | some s2 => rfl

theorem foldlM_inline_span (nid : Nat) (nm : List Char)
    (gs : List (List Char × List Char)) (sub : List ITree) :
    ∀ (pre rest : List ITree) (a : Arena),
      (pre ++ ITree.span nm gs sub :: rest).foldlM
        (fun (acc : Arena) it => do
          let (a1, tid) ← inlineToNode acc it
          a1.add nid tid) a = none := by
  intro pre
  induction pre with
  | nil => intro rest a; rfl
  | cons x pre ih =>
    intro rest a
    rw [List.cons_append, foldlM_cons_option]
    cases hfx : (do
        let (a1, tid) ← inlineToNode a x
        a1.add nid tid : Option Arena) with
    | none => rfl
    | some a2 =>
      show (List.foldlM _ a2 (pre ++ ITree.span nm gs sub :: rest)) = none
      exact ih rest a2

theorem inline_step_text (a : Arena) (nid : Nat) (t : List Char) :
    (do
      let (a1, tid) ← inlineToNode a (.text t)
      a1.add nid tid : Option Arena) =
      ((a.alloc (s2l "#text") [(s2l "value", .str t)]).1).add nid
        (a.alloc (s2l "#text") [(s2l "value", .str t)]).2 := rfl

theorem leafTexts_textNode (t : List Char) :
    leafTexts (s2l "#text") [(s2l "value", .str t)] = t := rfl

theorem leafTexts_nil_attrs (nm : List Char) : leafTexts nm [] = [] := by
  unfold leafTexts
  split
  · rfl
  · rfl

theorem leafTexts_blockAttrs (nm : List Char) (b : MatchedBlock) :
    leafTexts nm (blockAttrs b) = [] := by
  unfold leafTexts blockAttrs
  split
  · rfl
  · rfl

theorem parseLinesStep_eq_empty {st : PLState} {b : MatchedBlock}
    (hblk : blockOf b = some emptyBlock) :
    parseLinesStep st b = some st := by
  simp only [parseLinesStep, blockOf] at hblk ⊢
  rw [hblk]
  rfl

theorem parseLinesStep_eq_seq {st : PLState} {b : MatchedBlock}
    {bd : BlockDef} (hblk : blockOf b = some bd) (hne : bd ≠ emptyBlock)
    (hseq : bd.sequential = true) (hbn : b.name ≠ []) :
    parseLinesStep st b =
      (let ind := indentationBlock b + (if bd.nested then 1 else 0)
       let stack1 := popStack st.stack ind
       let parentName := replaceAll b.name (s2l "Item") [] (b.name.length + 1)
       let stackP := match stack1.head?.map (fun e => e.2) with
         | some pid =>
           if (st.arena.store pid).name ≠ parentName then stack1.tail
           else stack1
         | none => stack1
       let target := match stackP.head? with
         | some t => t.2
         | none => st.root
       ((st.arena.alloc parentName []).1.add target
           (st.arena.alloc parentName []).2).bind fun aW =>
         ((aW.alloc b.name (blockAttrs b)).1.add st.arena.size
             (aW.alloc b.name (blockAttrs b)).2).bind fun aN =>
           ((parseInlines b.lines.flatten).foldlM
             (fun (acc : Arena) it => do
               let (p1, tid) ← inlineToNode acc it
               p1.add aW.size tid) aN).bind fun a3 =>
             some { arena := a3, root := st.root,
                    stack := (ind, st.arena.size) :: stackP,
                    node := some aW.size }) := by
  obtain ⟨ch, tl, hbn2⟩ : ∃ ch tl, b.name = ch :: tl := by
    cases hx : b.name with
    | nil => exact absurd hx hbn
    | cons c t => exact ⟨c, t, rfl⟩
  simp only [parseLinesStep, blockOf] at hblk ⊢
  rw [hblk, hbn2]
  rw [if_neg (show ¬ (some bd = some emptyBlock) by simp [hne]), if_pos hseq]
  rfl

theorem parseLinesStep_eq_block {st : PLState} {b : MatchedBlock}
    {bd : BlockDef} (hblk : blockOf b = some bd) (hne : bd ≠ emptyBlock)
    (hseq : bd.sequential = false) (hbn : b.name ≠ []) :
    parseLinesStep st b =
      (let ind := indentationBlock b + (if bd.nested then 1 else 0)
       let stack1 := popStack st.stack ind
       ((st.arena.alloc b.name (blockAttrs b)).1.add
           ((stack1.head?.map (fun e => e.2)).getD st.root)
           (st.arena.alloc b.name (blockAttrs b)).2).bind fun aN =>
         ((parseInlines b.lines.flatten).foldlM
           (fun (acc : Arena) it => do
             let (p1, tid) ← inlineToNode acc it
             p1.add st.arena.size tid) aN).bind fun a3 =>
           some { arena := a3, root := st.root, stack := stack1,
                  node := some st.arena.size }) := by
  obtain ⟨ch, tl, hbn2⟩ : ∃ ch tl, b.name = ch :: tl := by
    cases hx : b.name with
    | nil => exact absurd hx hbn
    | cons c t => exact ⟨c, t, rfl⟩
  simp only [parseLinesStep, blockOf] at hblk ⊢
  rw [hblk, hbn2]
  rw [if_neg (show ¬ (some bd = some emptyBlock) by simp [hne]),
    if_neg (show ¬ (bd.sequential = true) by simp [hseq])]
  rfl

theorem parseLinesStep_eq_named {st : PLState} {b : MatchedBlock}
    (hblk : blockOf b = none) (hbn : b.name ≠ []) :
    parseLinesStep st b =
      (let stack1 := popStack st.stack (indentationBlock b)
       ((st.arena.alloc b.name (blockAttrs b)).1.add
           ((stack1.head?.map (fun e => e.2)).getD st.root)
           (st.arena.alloc b.name (blockAttrs b)).2).bind fun aN =>
         ((parseInlines b.lines.flatten).foldlM
           (fun (acc : Arena) it => do
             let (p1, tid) ← inlineToNode acc it
             p1.add st.arena.size tid) aN).bind fun a3 =>
           some { arena := a3, root := st.root, stack := stack1,
                  node := some st.arena.size }) := by
  obtain ⟨ch, tl, hbn2⟩ : ∃ ch tl, b.name = ch :: tl := by
    cases hx : b.name with
    | nil => exact absurd hx hbn
    | cons c t => exact ⟨c, t, rfl⟩
  simp only [parseLinesStep, blockOf] at hblk ⊢
  rw [hblk, hbn2]
  rfl

theorem parseLinesStep_eq_paragraph {st : PLState} {b : MatchedBlock}
    (hblk : blockOf b = none) (hbn : b.name = []) (hnd : st.node = none) :
    parseLinesStep st b =
      (let stack1 := popStack st.stack (indentationBlock b)
       ((st.arena.alloc (s2l "Paragraph") (blockAttrs b)).1.add
           ((stack1.head?.map (fun e => e.2)).getD st.root)
           (st.arena.alloc (s2l "Paragraph") (blockAttrs b)).2).bind fun aN =>
         ((parseInlines b.lines.flatten).foldlM
           (fun (acc : Arena) it => do
             let (p1, tid) ← inlineToNode acc it
             p1.add st.arena.size tid) aN).bind fun a3 =>
           some { arena := a3, root := st.root, stack := stack1,
                  node := some st.arena.size }) := by
  simp only [parseLinesStep, blockOf] at hblk ⊢
  rw [hblk, hbn, hnd]
  rfl

theorem parseLinesStep_eq_textonly2 {st : PLState} {b : MatchedBlock}
    {n : Nat} (hblk : blockOf b = none) (hbn : b.name = [])
    (hnd : st.node = some n) :
    parseLinesStep st b =
      ((parseInlines b.lines.flatten).foldlM
        (fun (acc : Arena) it => do
          let (p1, tid) ← inlineToNode acc it
          p1.add n tid) st.arena).bind fun a3 =>
        some { arena := a3, root := st.root,
               stack := popStack st.stack (indentationBlock b),
               node := some n } := by
  simp only [parseLinesStep, blockOf] at hblk ⊢
  rw [hblk, hbn, hnd]
  rfl

theorem popStack_suffix (s : List (Nat × Nat)) (ind : Nat) :
    popStack s ind <:+ s := by
  induction s with
  | nil => exact List.suffix_refl _
  | cons e s ih =>
    obtain ⟨i, nd⟩ := e
    show (if i ≥ ind then popStack s ind else (i, nd) :: s) <:+ (i, nd) :: s
    by_cases h : i ≥ ind
    · rw [if_pos h]
      exact ih.trans (List.suffix_cons _ _)
    · rw [if_neg h]

theorem head?_cases {α : Type} (l : List α) :
    l = [] ∨ ∃ e tl, l = e :: tl ∧ l.head? = some e := by
  cases l with
  | nil => exact Or.inl rfl
  | cons x tl => exact Or.inr ⟨x, tl, rfl, rfl⟩

theorem keptBlock_of_blockOf_empty {b : MatchedBlock}
    (h : blockOf b = some emptyBlock) : keptBlock b = false := by
  unfold blockOf at h
  unfold keptBlock
  cases hbe : b.entry with
  | none => rw [hbe] at h; cases h
  | some g =>
    cases g with
    | block bd =>
      rw [hbe] at h
      injection h with h
      subst h
      simp
    | line ld => rw [hbe] at h; cases h

theorem keptBlock_of_blockOf_some {b : MatchedBlock} {bd : BlockDef}
    (h : blockOf b = some bd) (hne : bd ≠ emptyBlock) :
    keptBlock b = true := by
  unfold blockOf at h
  unfold keptBlock
  cases hbe : b.entry with
  | none => rw [hbe] at h <;> exact Option.noConfusion h
  | some g =>
    cases g with
    | block bd2 =>
      rw [hbe] at h
      injection h with h
      subst h
      simp [hne]
    | line ld => rw [hbe] at h <;> exact Option.noConfusion h

theorem keptBlock_of_blockOf_none {b : MatchedBlock}
    (h : blockOf b = none) : keptBlock b = true := by
  unfold blockOf at h
  unfold keptBlock
  cases hbe : b.entry with
  | none => rfl
  | some g =>
    cases g with
    | block bd2 => rw [hbe] at h <;> exact Option.noConfusion h
    | line ld => rfl

theorem texts_tail_only {a2 : Arena} {r nid : Nat}
    (hco2 : Coherent a2) (hb2 : ChildBounds a2) (hr2 : r < a2.size)
    (hnsp : SpineFrom a2 r nid) (hnsz : nid < a2.size)
    (content : List Char) {a3 : Arena}
    (hfold : (parseInlines content).foldlM
      (fun (acc : Arena) it => do
        let (p1, tid) ← inlineToNode acc it
        p1.add nid tid) a2 = some a3) :
    Coherent a3 ∧ ChildBounds a3 ∧ a2.size ≤ a3.size ∧
      SpineFrom a3 r nid ∧
      (∀ s, SpineFrom a2 r s → s = nid ∨ Ancestor a2 nid s →
        SpineFrom a3 r s) ∧
      (∀ x y, x < a2.size → Ancestor a2 x y → Ancestor a3 x y) ∧
      (∀ F, a3.size ≤ F → ptexts a3 F r = ptexts a2 F r ++ content) := by
  rcases parseInlines_cases content with ⟨hcnil, hpi⟩ | hpi |
    ⟨pre, nm, gs, sub, rest, hpi⟩
  · rw [hpi] at hfold
    have ha3 : a3 = a2 := (Option.some.inj hfold).symm
    subst ha3
    refine ⟨hco2, hb2, le_refl _, hnsp, fun s hs _ => hs,
      fun x y _ h => h, ?_⟩
    intro F _
    rw [hcnil, List.append_nil]
  · rw [hpi, foldlM_singleton_option, inline_step_text] at hfold
    obtain ⟨hco3, hb3, hsz3, hparn, hpeq, hspnew, hsppres, htexts⟩ :=
      alloc_add_spine hco2 hb2 hr2 hnsp (s2l "#text")
        [(s2l "value", .str content)] hfold
    refine ⟨hco3, hb3, by omega, ?_, ?_, ?_, ?_⟩
    · exact hsppres nid hnsp (Or.inl rfl)
    · intro s hs hcase
      exact hsppres s hs hcase
    · intro x y hx h
      exact ancestor_parent_eq hco2 hb2 hpeq h hx
    · intro F hF
      rw [htexts F (by omega), leafTexts_textNode]
  · rw [hpi, foldlM_inline_span nid nm gs sub pre rest a2] at hfold
    exact Option.noConfusion hfold

theorem step_tail {a1 : Arena} {r target : Nat}
    (hco1 : Coherent a1) (hb1 : ChildBounds a1) (hr1 : r < a1.size)
    (hts : SpineFrom a1 r target)
    (nm : List Char) (ats : List (List Char × AttrVal))
    (hleaf : leafTexts nm ats = [])
    (content : List Char) {aN a3 : Arena}
    (hadd : ((a1.alloc nm ats).1).add target (a1.alloc nm ats).2 = some aN)
    (hfold : (parseInlines content).foldlM
      (fun (acc : Arena) it => do
        let (p1, tid) ← inlineToNode acc it
        p1.add a1.size tid) aN = some a3) :
    Coherent a3 ∧ ChildBounds a3 ∧ a1.size < a3.size ∧
      SpineFrom a3 r a1.size ∧
      (∀ s, SpineFrom a1 r s → s = target ∨ Ancestor a1 target s →
        SpineFrom a3 r s) ∧
      (∀ x y, x < a1.size → Ancestor a1 x y → Ancestor a3 x y) ∧
      Ancestor a3 a1.size target ∧
      (∀ F, a3.size ≤ F → ptexts a3 F r = ptexts a1 F r ++ content) := by
  have htsz : target < a1.size := (SpineFrom.le hb1 hr1 hts).2
  obtain ⟨hcoN, hbN, hszN, hparN, hpeqN, hspN, hppN, htxN⟩ :=
    alloc_add_spine hco1 hb1 hr1 hts nm ats hadd
  have hrN : r < aN.size := by omega
  have hnszN : a1.size < aN.size := by omega
  obtain ⟨hco3, hb3, hsz3, hsp3, hpp3, hanc3, htx3⟩ :=
    texts_tail_only hcoN hbN hrN hspN hnszN content hfold
  refine ⟨hco3, hb3, by omega, hsp3, ?_, ?_, ?_, ?_⟩
  · intro s hs hcase
    have hsN : SpineFrom aN r s := hppN s hs hcase
    refine hpp3 s hsN (Or.inr ?_)
    rcases hcase with rfl | hanc
    · exact .parent hparN
    · exact .trans hparN (ancestor_parent_eq hco1 hb1 hpeqN hanc htsz)
  · intro x y hx h
    exact hanc3 x y (by omega) (ancestor_parent_eq hco1 hb1 hpeqN h hx)
  · exact hanc3 _ _ hnszN (.parent hparN)
  · intro F hF
    rw [htx3 F hF, htxN F (by omega), hleaf, List.append_nil]

theorem single_append_case {A : Arena} {r : Nat}
    {stack0 stack1 : List (Nat × Nat)}
    (hco : Coherent A) (hcb : ChildBounds A) (hroot : r < A.size)
    (hstack : ∀ e ∈ stack0, e.2 < A.size ∧ SpineFrom A r e.2)
    (hpair : stack0.Pairwise (fun x y => Ancestor A x.2 y.2))
    (hsfx : stack1 <:+ stack0)
    (nm : List Char) (ats : List (List Char × AttrVal))
    (hleaf : leafTexts nm ats = [])
    (content : List Char) {aN a3 : Arena}
    (hadd : ((A.alloc nm ats).1).add
      ((stack1.head?.map (fun e => e.2)).getD r) (A.alloc nm ats).2 = some aN)
    (hfold : (parseInlines content).foldlM
      (fun (acc : Arena) it => do
        let (p1, tid) ← inlineToNode acc it
        p1.add A.size tid) aN = some a3) :
    PLInv ⟨a3, r, stack1, some A.size⟩ ∧ A.size < a3.size ∧
      (∀ F, a3.size ≤ F → ptexts a3 F r = ptexts A F r ++ content) := by
  have hpair1 : stack1.Pairwise (fun x y => Ancestor A x.2 y.2) :=
    hpair.sublist hsfx.sublist
  have hstack1 : ∀ e ∈ stack1, e.2 < A.size ∧ SpineFrom A r e.2 :=
    fun e he => hstack e (hsfx.subset he)
  rcases head?_cases stack1 with hnil | ⟨e0, tl, hcons, hhead⟩
  · subst hnil
    obtain ⟨hco3, hb3, hsz3, hsp3, hpp3, hanc3, hancn, htx3⟩ :=
      step_tail hco hcb hroot .refl nm ats hleaf content hadd hfold
    refine ⟨⟨hco3, hb3, show r < a3.size by omega, ?_, ?_, ?_⟩,
      by omega, htx3⟩
    · intro e he
      exact absurd he (List.not_mem_nil e)
    · exact List.Pairwise.nil
    · intro n hn
      injection hn with hn
      subst hn
      exact ⟨show A.size < a3.size by omega, hsp3,
        fun e he => absurd he (List.not_mem_nil e)⟩
  · have htgt : ((stack1.head?).map (fun e => e.2)).getD r = e0.2 := by
      rw [hhead]
      rfl
    rw [htgt] at hadd
    have he0 : e0 ∈ stack1 := by
      rw [hcons]
      exact List.mem_cons_self _ _
    obtain ⟨he0sz, he0sp⟩ := hstack1 e0 he0
    have hrel : ∀ e ∈ stack1, e.2 = e0.2 ∨ Ancestor A e0.2 e.2 := by
      intro e he
      rw [hcons] at he
      rcases List.mem_cons.mp he with rfl | he'
      · exact Or.inl rfl
      · rw [hcons] at hpair1
        exact Or.inr ((List.pairwise_cons.mp hpair1).1 e he')
    obtain ⟨hco3, hb3, hsz3, hsp3, hpp3, hanc3, hancn, htx3⟩ :=
      step_tail hco hcb hroot he0sp nm ats hleaf content hadd hfold
    refine ⟨⟨hco3, hb3, show r < a3.size by omega, ?_, ?_, ?_⟩,
      by omega, htx3⟩
    · intro e he
      obtain ⟨hesz, hesp⟩ := hstack1 e he
      exact ⟨show e.2 < a3.size by omega, hpp3 e.2 hesp (hrel e he)⟩
    · refine hpair1.imp_of_mem ?_
      intro x y hx hy hxy
      exact hanc3 x.2 y.2 (hstack1 x hx).1 hxy
    · intro n hn
      injection hn with hn
      subst hn
      refine ⟨show A.size < a3.size by omega, hsp3, ?_⟩
      intro e he
      rcases hrel e he with heq | hanc
      · rw [heq]
        exact Or.inr hancn
      · exact Or.inr (ancestor_trans hancn (hanc3 e0.2 e.2 he0sz hanc))

theorem textonly_case {A : Arena} {r n : Nat}
    {stack0 stack1 : List (Nat × Nat)}
    (hco : Coherent A) (hcb : ChildBounds A) (hroot : r < A.size)
    (hstack : ∀ e ∈ stack0, e.2 < A.size ∧ SpineFrom A r e.2)
    (hpair : stack0.Pairwise (fun x y => Ancestor A x.2 y.2))
    (hnsz : n < A.size) (hnsp : SpineFrom A r n)
    (hnrel : ∀ e ∈ stack0, e.2 = n ∨ Ancestor A n e.2)
    (hsfx : stack1 <:+ stack0)
    (content : List Char) {a3 : Arena}
    (hfold : (parseInlines content).foldlM
      (fun (acc : Arena) it => do
        let (p1, tid) ← inlineToNode acc it
        p1.add n tid) A = some a3) :
    PLInv ⟨a3, r, stack1, some n⟩ ∧ A.size ≤ a3.size ∧
      (∀ F, a3.size ≤ F → ptexts a3 F r = ptexts A F r ++ content) := by
  obtain ⟨hco3, hb3, hsz3, hsp3, hpp3, hanc3, htx3⟩ :=
    texts_tail_only hco hcb hroot hnsp hnsz content hfold
  have hstack1 : ∀ e ∈ stack1, e.2 < A.size ∧ SpineFrom A r e.2 :=
    fun e he => hstack e (hsfx.subset he)
  have hrel1 : ∀ e ∈ stack1, e.2 = n ∨ Ancestor A n e.2 :=
    fun e he => hnrel e (hsfx.subset he)
  refine ⟨⟨hco3, hb3, show r < a3.size by omega, ?_, ?_, ?_⟩, hsz3, htx3⟩
  · intro e he
    refine ⟨show e.2 < a3.size by have := (hstack1 e he).1; omega, ?_⟩
    exact hpp3 e.2 (hstack1 e he).2 (hrel1 e he)
  · refine (hpair.sublist hsfx.sublist).imp_of_mem ?_
    intro x y hx hy hxy
    exact hanc3 x.2 y.2 (hstack1 x hx).1 hxy
  · intro m hm
    injection hm with hm
    subst hm
    refine ⟨show n < a3.size by omega, hsp3, ?_⟩
    intro e he
    rcases hrel1 e he with heq | hanc
    · exact Or.inl heq
    · exact Or.inr (hanc3 n e.2 hnsz hanc)

theorem seq_append_case {A : Arena} {r ind : Nat}
    {stack0 stackP : List (Nat × Nat)}
    (hco : Coherent A) (hcb : ChildBounds A) (hroot : r < A.size)
    (hstack : ∀ e ∈ stack0, e.2 < A.size ∧ SpineFrom A r e.2)
    (hpair : stack0.Pairwise (fun x y => Ancestor A x.2 y.2))
    (hsfx : stackP <:+ stack0)
    (pn : List Char) (nmN : List Char) (atsN : List (List Char × AttrVal))
    (hleafN : leafTexts nmN atsN = [])
    (content : List Char) {aW aN a3 : Arena}
    (haddW : ((A.alloc pn []).1).add
      (match stackP.head? with | some t => t.2 | none => r)
      (A.alloc pn []).2 = some aW)
    (haddN : ((aW.alloc nmN atsN).1).add A.size
      (aW.alloc nmN atsN).2 = some aN)
    (hfold : (parseInlines content).foldlM
      (fun (acc : Arena) it => do
        let (p1, tid) ← inlineToNode acc it
        p1.add aW.size tid) aN = some a3) :
    PLInv ⟨a3, r, (ind, A.size) :: stackP, some aW.size⟩ ∧
      A.size < a3.size ∧
      (∀ F, a3.size ≤ F → ptexts a3 F r = ptexts A F r ++ content) := by
  have hpairP : stackP.Pairwise (fun x y => Ancestor A x.2 y.2) :=
    hpair.sublist hsfx.sublist
  have hstackP : ∀ e ∈ stackP, e.2 < A.size ∧ SpineFrom A r e.2 :=
    fun e he => hstack e (hsfx.subset he)
  have htf : ∃ tw, (match stackP.head? with
        | some t => t.2 | none => r) = tw ∧ tw < A.size ∧
      SpineFrom A r tw ∧ ∀ e ∈ stackP, e.2 = tw ∨ Ancestor A tw e.2 := by
    rcases head?_cases stackP with hnil | ⟨e0, tl, hcons, hhead⟩
    · subst hnil
      exact ⟨r, rfl, hroot, .refl,
        fun e he => absurd he (List.not_mem_nil e)⟩
    · have he0 : e0 ∈ stackP := by
        rw [hcons]
        exact List.mem_cons_self _ _
      refine ⟨e0.2, by rw [hhead], (hstackP e0 he0).1,
        (hstackP e0 he0).2, ?_⟩
      intro e he
      rw [hcons] at he
      rcases List.mem_cons.mp he with rfl | he'
      · exact Or.inl rfl
      · rw [hcons] at hpairP
        exact Or.inr ((List.pairwise_cons.mp hpairP).1 e he')
  obtain ⟨tw, htw, htwsz, htwsp, htwrel⟩ := htf
  rw [htw] at haddW
  obtain ⟨hcoW, hbW, hszW, hparW, hpeqW, hspW, hppW, htxW⟩ :=
    alloc_add_spine hco hcb hroot htwsp pn [] haddW
  have hrW : r < aW.size := by omega
  obtain ⟨hco3, hb3, hsz3, hsp3, hpp3, hanc3, hancn, htx3⟩ :=
    step_tail hcoW hbW hrW hspW nmN atsN hleafN content haddN hfold
  have hPW : ∀ e ∈ stackP, SpineFrom aW r e.2 ∧ Ancestor aW A.size e.2 := by
    intro e he
    obtain ⟨hesz, hesp⟩ := hstackP e he
    refine ⟨hppW e.2 hesp (htwrel e he), ?_⟩
    rcases htwrel e he with heq | hanc
    · rw [heq]
      exact .parent hparW
    · exact .trans hparW (ancestor_parent_eq hco hcb hpeqW hanc htwsz)
  have hPa3 : ∀ e ∈ stackP, SpineFrom a3 r e.2 ∧ Ancestor a3 A.size e.2 := by
    intro e he
    obtain ⟨hspw, hancw⟩ := hPW e he
    refine ⟨hpp3 e.2 hspw (Or.inr hancw), ?_⟩
    exact hanc3 A.size e.2 (by omega) hancw
  refine ⟨⟨hco3, hb3, show r < a3.size by omega, ?_, ?_, ?_⟩,
    by omega, ?_⟩
  · intro e he
    rcases List.mem_cons.mp he with rfl | he'
    · exact ⟨show A.size < a3.size by omega,
        hpp3 A.size hspW (Or.inl rfl)⟩
    · obtain ⟨hesz, _⟩ := hstackP e he'
      exact ⟨show e.2 < a3.size by omega, (hPa3 e he').1⟩
  · rw [List.pairwise_cons]
    constructor
    · intro e he'
      exact (hPa3 e he').2
    · refine hpairP.imp_of_mem ?_
      intro x y hx hy hxy
      have hxsz := (hstackP x hx).1
      exact hanc3 x.2 y.2 (by omega)
        (ancestor_parent_eq hco hcb hpeqW hxy hxsz)
  · intro m hm
    injection hm with hm
    subst hm
    refine ⟨show aW.size < a3.size by omega, hsp3, ?_⟩
    intro e he
    rcases List.mem_cons.mp he with rfl | he'
    · exact Or.inr hancn
    · exact Or.inr (ancestor_trans hancn (hPa3 e he').2)
  · intro F hF
    rw [htx3 F hF, htxW F (by omega), leafTexts_nil_attrs, List.append_nil]

theorem parseLinesStep_spec {st : PLState} {b : MatchedBlock}
    {st2 : PLState} (hwb : WBlock b)
    (hstep : parseLinesStep st b = some st2) (hinv : PLInv st) :
    PLInv st2 ∧ st2.root = st.root ∧ st.arena.size ≤ st2.arena.size ∧
      ∀ F, st2.arena.size ≤ F →
        ptexts st2.arena F st2.root =
          ptexts st.arena F st.root ++
            (if keptBlock b then blockContent b else []) := by
  obtain ⟨hco, hcb, hroot, hstack, hpair, hnode⟩ := hinv
  cases hM : blockOf b with
  | some bd =>
    have hbn : b.name ≠ [] := by
      intro h
      have he := hwb h
      unfold blockOf at hM
      rw [he] at hM
      exact Option.noConfusion hM
    by_cases hne : bd = emptyBlock
    · subst hne
      rw [parseLinesStep_eq_empty hM] at hstep
      injection hstep with hstep
      subst hstep
      rw [keptBlock_of_blockOf_empty hM]
      refine ⟨⟨hco, hcb, hroot, hstack, hpair, hnode⟩, rfl, le_refl _, ?_⟩
      intro F _
      simp
    · cases hseq : bd.sequential with
      | true =>
        rw [parseLinesStep_eq_seq hM hne hseq hbn] at hstep
        simp only [Option.bind_eq_some, Option.some.injEq] at hstep
        obtain ⟨aW, haddW, aN, haddN, a3, hfold, hst2⟩ := hstep
        subst hst2
        obtain ⟨hinv2, hszlt, htexts⟩ :=
          seq_append_case hco hcb hroot hstack hpair
            (by
              have h1 := popStack_suffix st.stack
                (indentationBlock b + (if bd.nested then 1 else 0))
              split
              · split
                · exact (List.tail_suffix _).trans h1
                · exact h1
              · exact h1)
            (replaceAll b.name (s2l "Item") [] (b.name.length + 1))
            b.name (blockAttrs b) (leafTexts_blockAttrs _ _)
            b.lines.flatten haddW haddN hfold
        rw [keptBlock_of_blockOf_some hM hne]
        refine ⟨hinv2, rfl, show st.arena.size ≤ a3.size by omega, ?_⟩
        intro F hF
        rw [if_pos rfl]
        exact htexts F hF
      | false =>
        rw [parseLinesStep_eq_block hM hne hseq hbn] at hstep
        simp only [Option.bind_eq_some, Option.some.injEq] at hstep
        obtain ⟨aN, haddN, a3, hfold, hst2⟩ := hstep
        subst hst2
        obtain ⟨hinv2, hszlt, htexts⟩ :=
          single_append_case hco hcb hroot hstack hpair
            (popStack_suffix st.stack _) b.name (blockAttrs b)
            (leafTexts_blockAttrs _ _) b.lines.flatten haddN hfold
        rw [keptBlock_of_blockOf_some hM hne]
        refine ⟨hinv2, rfl, show st.arena.size ≤ a3.size by omega, ?_⟩
        intro F hF
        rw [if_pos rfl]
        exact htexts F hF
  | none =>
    by_cases hbn : b.name = []
    · cases hndv : st.node with
      | none =>
        rw [parseLinesStep_eq_paragraph hM hbn hndv] at hstep
        simp only [Option.bind_eq_some, Option.some.injEq] at hstep
        obtain ⟨aN, haddN, a3, hfold, hst2⟩ := hstep
        subst hst2
        obtain ⟨hinv2, hszlt, htexts⟩ :=
          single_append_case hco hcb hroot hstack hpair
            (popStack_suffix st.stack _) (s2l "Paragraph") (blockAttrs b)
            (leafTexts_blockAttrs _ _) b.lines.flatten haddN hfold
        rw [keptBlock_of_blockOf_none hM]
        refine ⟨hinv2, rfl, show st.arena.size ≤ a3.size by omega, ?_⟩
        intro F hF
        rw [if_pos rfl]
        exact htexts F hF
      | some n =>
        rw [parseLinesStep_eq_textonly2 hM hbn hndv] at hstep
        simp only [Option.bind_eq_some, Option.some.injEq] at hstep
        obtain ⟨a3, hfold, hst2⟩ := hstep
        subst hst2
        obtain ⟨hnsz, hnsp, hnrel⟩ := hnode n hndv
        obtain ⟨hinv2, hszle, htexts⟩ :=
          textonly_case hco hcb hroot hstack hpair hnsz hnsp hnrel
            (popStack_suffix st.stack _) b.lines.flatten hfold
        rw [keptBlock_of_blockOf_none hM]
        refine ⟨hinv2, rfl, show st.arena.size ≤ a3.size by omega, ?_⟩
        intro F hF
        rw [if_pos rfl]
        exact htexts F hF
    · rw [parseLinesStep_eq_named hM hbn] at hstep
      simp only [Option.bind_eq_some, Option.some.injEq] at hstep
      obtain ⟨aN, haddN, a3, hfold, hst2⟩ := hstep
      subst hst2
      obtain ⟨hinv2, hszlt, htexts⟩ :=
        single_append_case hco hcb hroot hstack hpair
          (popStack_suffix st.stack _) b.name (blockAttrs b)
          (leafTexts_blockAttrs _ _) b.lines.flatten haddN hfold
      rw [keptBlock_of_blockOf_none hM]
      refine ⟨hinv2, rfl, show st.arena.size ≤ a3.size by omega, ?_⟩
      intro F hF
      rw [if_pos rfl]
      exact htexts F hF

theorem firstBlockMatch_spec :
    ∀ {blocks : List (List Char × GEntry)} {line : List Char}
      {k : List Char} {g : GEntry} {m : PrefMatch},
      firstBlockMatch blocks line = some (k, g, m) →
      (k, g) ∈ blocks ∧ prefMatch g.startKind line = some m := by
  intro blocks
  induction blocks with
  | nil => intro line k g m h; exact Option.noConfusion h
  | cons e rest ih =>
    intro line k g m h
    obtain ⟨k2, g2⟩ := e
    rw [firstBlockMatch] at h
    cases hpm : prefMatch g2.startKind line with
    | none =>
      rw [hpm] at h
      obtain ⟨h1, h2⟩ := ih h
      exact ⟨List.mem_cons_of_mem _ h1, h2⟩
    | some m2 =>
      rw [hpm] at h
      injection h with h
      injection h with h1 h2
      subst h1
      injection h2 with h3 h4
      subst h3
      subst h4
      exact ⟨List.mem_cons_self _ _, hpm⟩

theorem notaBlocks_keys_nonempty : ∀ kb ∈ notaBlocks, kb.1 ≠ [] := by
  decide

theorem blockStepMatch_wb {cur : Option MatchedBlock} {line : List Char}
    (hcur : ∀ c, cur = some c → WBlock c) :
    (∀ x ∈ (blockStepMatch notaBlocks cur line).1, WBlock x) ∧
    (∀ c2, (blockStepMatch notaBlocks cur line).2 = some c2 → WBlock c2) := by
  have hcl : ∀ x ∈ cur.toList, WBlock x := by
    intro x hx
    cases cur with
    | none => exact absurd hx (List.not_mem_nil x)
    | some c =>
      have hx2 : x ∈ [c] := hx
      rw [List.mem_singleton] at hx2
      subst hx2
      exact hcur x rfl
  cases hf : firstBlockMatch notaBlocks line with
  | some kgm =>
    obtain ⟨k, g, m⟩ := kgm
    have hk : k ≠ [] :=
      notaBlocks_keys_nonempty (k, g) (firstBlockMatch_spec hf).1
    cases g with
    | block bd =>
      have he : blockStepMatch notaBlocks cur line =
          (cur.toList, some ⟨k, some (.block bd),
            [applyExtract (GEntry.block bd).startKind m line],
            some m, none⟩) := by
        unfold blockStepMatch
        rw [hf]
      rw [he]
      refine ⟨hcl, ?_⟩
      intro c2 hc2
      injection hc2 with hc2
      subst hc2
      intro hname
      exact absurd hname hk
    | line ld =>
      have he : blockStepMatch notaBlocks cur line =
          (cur.toList ++ [⟨k, some (.line ld),
            [applyExtract (GEntry.line ld).startKind m line],
            some m, none⟩], none) := by
        unfold blockStepMatch
        rw [hf]
      rw [he]
      constructor
      · intro x hx
        rcases List.mem_append.mp hx with h1 | h1
        · exact hcl x h1
        · rw [List.mem_singleton] at h1
          subst h1
          intro hname
          exact absurd hname hk
      · intro c2 hc2
        exact Option.noConfusion hc2
  | none =>
    cases cur with
    | none =>
      have he : blockStepMatch notaBlocks none line =
          ([], some ⟨[], none, [line], none, none⟩) := by
        unfold blockStepMatch
        rw [hf]
      rw [he]
      refine ⟨fun x hx => absurd hx (List.not_mem_nil x), ?_⟩
      intro c2 hc2
      injection hc2 with hc2
      subst hc2
      intro _
      rfl
    | some c =>
      by_cases hn : c.name = []
      · have he : blockStepMatch notaBlocks (some c) line =
            ([], some { c with lines := c.lines ++ [line] }) := by
          unfold blockStepMatch
          rw [hf]
          show (if c.name = []
            then ([], some { c with lines := c.lines ++ [line] })
            else ([c], some ⟨[], none, [line], none, none⟩)) = _
          rw [if_pos hn]
        rw [he]
        refine ⟨fun x hx => absurd hx (List.not_mem_nil x), ?_⟩
        intro c2 hc2
        injection hc2 with hc2
        subst hc2
        intro _
        exact hcur c rfl hn
      · have he : blockStepMatch notaBlocks (some c) line =
            ([c], some ⟨[], none, [line], none, none⟩) := by
          unfold blockStepMatch
          rw [hf]
          show (if c.name = []
            then ([], some { c with lines := c.lines ++ [line] })
            else ([c], some ⟨[], none, [line], none, none⟩)) = _
          rw [if_neg hn]
        rw [he]
        constructor
        · intro x hx
          rw [List.mem_singleton] at hx
          subst hx
          exact hcur x rfl
        · intro c2 hc2
          injection hc2 with hc2
          subst hc2
          intro _
          rfl

theorem blockStep_some_eq (c : MatchedBlock) (line : List Char) :
    blockStep notaBlocks (some c) line =
      (match c.entry with
      | some (.block bd) =>
        (match bd.stop with
        | some ek =>
          (match prefMatch ek line with
          | some m =>
            ([{ c with lines := c.lines ++ [line.take 0], endM := some m }],
              none)
          | none => ([], some { c with lines := c.lines ++ [line] }))
        | none => blockStepMatch notaBlocks (some c) line)
      | _ => blockStepMatch notaBlocks (some c) line) := rfl

theorem blockStep_wb {cur : Option MatchedBlock} {line : List Char}
    (hcur : ∀ c, cur = some c → WBlock c) :
    (∀ x ∈ (blockStep notaBlocks cur line).1, WBlock x) ∧
    (∀ c2, (blockStep notaBlocks cur line).2 = some c2 → WBlock c2) := by
  cases cur with
  | none => exact blockStepMatch_wb hcur
  | some c =>
    rw [blockStep_some_eq]
    split
    · split
      · split
        · constructor
          · intro x hx
            rw [List.mem_singleton] at hx
            subst hx
            intro hname
            exact hcur c rfl hname
          · intro c2 hc2
            exact Option.noConfusion hc2
        · constructor
          · intro x hx
            exact absurd hx (List.not_mem_nil x)
          · intro c2 hc2
            injection hc2 with hc2
            subst hc2
            intro hname
            exact hcur c rfl hname
      · exact blockStepMatch_wb hcur
    · exact blockStepMatch_wb hcur

theorem parseBlocksGo_wb :
    ∀ (input : List (List Char)) (cur : Option MatchedBlock),
      (∀ c, cur = some c → WBlock c) →
      ∀ b ∈ parseBlocksGo notaBlocks cur input, WBlock b := by
  intro input
  induction input with
  | nil =>
    intro cur hcur b hb
    cases cur with
    | none => exact absurd hb (List.not_mem_nil b)
    | some c =>
      rw [show parseBlocksGo notaBlocks (some c) [] = [c] from rfl,
        List.mem_singleton] at hb
      subst hb
      exact hcur b rfl
  | cons l rest ih =>
    intro cur hcur b hb
    rw [show parseBlocksGo notaBlocks cur (l :: rest) =
      (blockStep notaBlocks cur l).1 ++
        parseBlocksGo notaBlocks (blockStep notaBlocks cur l).2 rest
      from rfl] at hb
    rcases List.mem_append.mp hb with h1 | h1
    · exact (blockStep_wb hcur).1 b h1
    · exact ih _ (blockStep_wb hcur).2 b h1

theorem parseBlocks_wb (input : List (List Char)) :
    ∀ b ∈ parseBlocks notaBlocks input, WBlock b :=
  parseBlocksGo_wb input none (fun c hc => Option.noConfusion hc)

theorem parseLines_fold :
    ∀ (bs : List MatchedBlock) (st : PLState) (st2 : PLState),
      (∀ b ∈ bs, WBlock b) →
      bs.foldlM parseLinesStep st = some st2 → PLInv st →
      PLInv st2 ∧ st2.root = st.root ∧ st.arena.size ≤ st2.arena.size ∧
        ∀ F, st2.arena.size ≤ F →
          ptexts st2.arena F st2.root =
            ptexts st.arena F st.root ++
              ((bs.filter keptBlock).map blockContent).flatten := by
  intro bs
  induction bs with
  | nil =>
    intro st st2 _ hfold hinv
    have h2 : st = st2 := Option.some.inj hfold
    subst h2
    refine ⟨hinv, rfl, le_refl _, ?_⟩
    intro F _
    simp
  | cons b bs ih =>
    intro st st2 hwb hfold hinv
    rw [foldlM_cons_option, Option.bind_eq_some] at hfold
    obtain ⟨st1, hstep, hfold⟩ := hfold
    obtain ⟨hinv1, hroot1, hsz1, htex1⟩ :=
      parseLinesStep_spec (hwb b (List.mem_cons_self _ _)) hstep hinv
    obtain ⟨hinv2, hroot2, hsz2, htex2⟩ :=
      ih st1 st2 (fun x hx => hwb x (List.mem_cons_of_mem _ hx)) hfold hinv1
    refine ⟨hinv2, hroot2.trans hroot1, by omega, ?_⟩
    intro F hF
    rw [htex2 F hF, htex1 F (by omega), List.filter_cons]
    cases hk : keptBlock b
    · simp [hk]
    · simp [hk, List.append_assoc]

theorem ptexts_init :
    ∀ F, ptexts ((⟨[]⟩ : Arena).alloc (s2l "Nota") []).1 F
      ((⟨[]⟩ : Arena).alloc (s2l "Nota") []).2 = [] := by
  intro F
  cases F with
  | zero => rfl
  | succ F => rfl

theorem plinv_init :
    PLInv ⟨((⟨[]⟩ : Arena).alloc (s2l "Nota") []).1,
      ((⟨[]⟩ : Arena).alloc (s2l "Nota") []).2, [], none⟩ := by
  refine ⟨⟨by decide, by decide⟩, by decide, by decide, ?_, ?_, ?_⟩
  · intro e he
    exact absurd he (List.not_mem_nil e)
  · exact List.Pairwise.nil
  · intro n hn
    exact Option.noConfusion hn

theorem c1_amended_main (input : List (List Char)) (a : Arena) (root : Nat)
    (hp : parseLines input = some (a, root)) (F : Nat) (hF : a.size ≤ F) :
    PTree.texts (toPTree a F root) = keptContent input := by
  unfold parseLines at hp
  rw [Option.map_eq_some'] at hp
  obtain ⟨st2, hfold, hpair⟩ := hp
  injection hpair with h1 h2
  obtain ⟨hinv2, hroot2, hsz2, htex2⟩ :=
    parseLines_fold (parseBlocks notaBlocks input) _ st2
      (parseBlocks_wb input) hfold plinv_init
  have hFs : st2.arena.size ≤ F := by
    rw [h1]
    exact hF
  have hte := htex2 F hFs
  rw [ptexts_init, List.nil_append] at hte
  show ptexts a F root = keptContent input
  rw [← h1, ← h2, hte]
  rfl

theorem blockStepMatch_content (cur : Option MatchedBlock)
    (line : List Char) :
    ∃ kl, LineKept line kl ∧
      ((blockStepMatch notaBlocks cur line).1.map blockContent).flatten ++
        ((blockStepMatch notaBlocks cur line).2.toList.map
          blockContent).flatten =
      (cur.toList.map blockContent).flatten ++ kl := by
  cases hf : firstBlockMatch notaBlocks line with
  | some kgm =>
    obtain ⟨k, g, m⟩ := kgm
    have hpm : prefMatch g.startKind line = some m :=
      (firstBlockMatch_spec hf).2
    refine ⟨applyExtract g.startKind m line, .prefixCut g.startKind m hpm, ?_⟩
    cases g with
    | block bd =>
      have he : blockStepMatch notaBlocks cur line =
          (cur.toList, some ⟨k, some (.block bd),
            [applyExtract (GEntry.block bd).startKind m line],
            some m, none⟩) := by
        unfold blockStepMatch
        rw [hf]
      rw [he]
      show (cur.toList.map blockContent).flatten ++
        (blockContent (⟨k, some (.block bd),
          [applyExtract (GEntry.block bd).startKind m line],
          some m, none⟩ : MatchedBlock) ++ []) = _
      unfold blockContent
      simp
    | line ld =>
      have he : blockStepMatch notaBlocks cur line =
          (cur.toList ++ [⟨k, some (.line ld),
            [applyExtract (GEntry.line ld).startKind m line],
            some m, none⟩], none) := by
        unfold blockStepMatch
        rw [hf]
      rw [he]
      show ((cur.toList ++ [(⟨k, some (.line ld),
          [applyExtract (GEntry.line ld).startKind m line],
          some m, none⟩ : MatchedBlock)]).map blockContent).flatten ++ [] = _
      rw [List.map_append, List.flatten_append]
      unfold blockContent
      simp
  | none =>
    refine ⟨line, .verbatim line, ?_⟩
    cases cur with
    | none =>
      have he : blockStepMatch notaBlocks none line =
          ([], some ⟨[], none, [line], none, none⟩) := by
        unfold blockStepMatch
        rw [hf]
      rw [he]
      show [] ++ (blockContent ⟨[], none, [line], none, none⟩ ++ []) = _
      unfold blockContent
      simp
    | some c =>
      by_cases hn : c.name = []
      · have he : blockStepMatch notaBlocks (some c) line =
            ([], some { c with lines := c.lines ++ [line] }) := by
          unfold blockStepMatch
          rw [hf]
          show (if c.name = []
            then ([], some { c with lines := c.lines ++ [line] })
            else ([c], some ⟨[], none, [line], none, none⟩)) = _
          rw [if_pos hn]
        rw [he]
        show [] ++ (blockContent { c with lines := c.lines ++ [line] }
          ++ []) = (blockContent c ++ []) ++ line
        unfold blockContent
        show [] ++ ((c.lines ++ [line]).flatten ++ []) = _
        rw [List.flatten_append]
        simp
      · have he : blockStepMatch notaBlocks (some c) line =
            ([c], some ⟨[], none, [line], none, none⟩) := by
          unfold blockStepMatch
          rw [hf]
          show (if c.name = []
            then ([], some { c with lines := c.lines ++ [line] })
            else ([c], some ⟨[], none, [line], none, none⟩)) = _
          rw [if_neg hn]
        rw [he]
        show (blockContent c ++ []) ++
          (blockContent ⟨[], none, [line], none, none⟩ ++ []) =
          (blockContent c ++ []) ++ line
        unfold blockContent
        simp

theorem blockStep_content (cur : Option MatchedBlock) (line : List Char) :
    ∃ kl, LineKept line kl ∧
      ((blockStep notaBlocks cur line).1.map blockContent).flatten ++
        ((blockStep notaBlocks cur line).2.toList.map
          blockContent).flatten =
      (cur.toList.map blockContent).flatten ++ kl := by
  cases cur with
  | none => exact blockStepMatch_content none line
  | some c =>
    rw [blockStep_some_eq]
    split
    · split
      · split
        · rename_i m hpm
          refine ⟨line.take 0, .endCut _ m hpm, ?_⟩
          show (blockContent { c with lines := c.lines ++ [line.take 0], endM := some m } ++ []) ++ [] =
            (blockContent c ++ []) ++ line.take 0
          unfold blockContent
          show ((c.lines ++ [line.take 0]).flatten ++ []) ++ [] = _
          rw [List.flatten_append]
          simp
        · refine ⟨line, .verbatim line, ?_⟩
          show [] ++ (blockContent { c with lines := c.lines ++ [line] } ++ []) =
            (blockContent c ++ []) ++ line
          unfold blockContent
          show [] ++ ((c.lines ++ [line]).flatten ++ []) = _
          rw [List.flatten_append]
          simp
      · exact blockStepMatch_content (some c) line
    · exact blockStepMatch_content (some c) line

theorem parseBlocksGo_content :
    ∀ (input : List (List Char)) (cur : Option MatchedBlock),
      ∃ kept, List.Forall₂ LineKept input kept ∧
        ((parseBlocksGo notaBlocks cur input).map blockContent).flatten =
          (cur.toList.map blockContent).flatten ++ kept.flatten := by
  intro input
  induction input with
  | nil =>
    intro cur
    refine ⟨[], .nil, ?_⟩
    cases cur with
    | none => rfl
    | some c =>
      show (blockContent c ++ []) = (blockContent c ++ []) ++ []
      simp
  | cons l rest ih =>
    intro cur
    obtain ⟨kept, hk, he⟩ := ih (blockStep notaBlocks cur l).2
    obtain ⟨kl, hkl, hline⟩ := blockStep_content cur l
    refine ⟨kl :: kept, .cons hkl hk, ?_⟩
    rw [show parseBlocksGo notaBlocks cur (l :: rest) =
      (blockStep notaBlocks cur l).1 ++
        parseBlocksGo notaBlocks (blockStep notaBlocks cur l).2 rest
      from rfl]
    rw [List.map_append, List.flatten_append, he, ← List.append_assoc,
      hline, List.append_assoc]
    rfl

theorem allContent_account (input : List (List Char)) :
    ∃ kept, List.Forall₂ LineKept input kept ∧
      allContent input = kept.flatten := by
  obtain ⟨kept, hk, he⟩ := parseBlocksGo_content input none
  refine ⟨kept, hk, ?_⟩
  unfold allContent parseBlocks
  rw [he]
  rfl

/-! ## Well-formedness of parsed and transformed trees (claim C9)

With allocation-ordered children (`ChildBounds`), every ancestor has a
strictly smaller id, so coherence plus `ChildBounds` already rules out
cycles; `parseLines` maintains both (the `PLInv` development above), and
so does the `Replace` transform, whose insertions are always freshly
copied nodes. -/

theorem acyclic_of_cb {a : Arena} (hco : Coherent a) (hb : ChildBounds a) :
    Acyclic a := by
  intro n han
  by_cases hn : n < a.size
  · have := (ancestor_lt hco hb han hn).1
    omega
  · have hst : a.store n = default := Arena.store_ge (by omega)
    cases han with
    | parent hp =>
      rw [hst] at hp
      exact Option.noConfusion hp
    | trans hp h2 =>
      rw [hst] at hp
      exact Option.noConfusion hp

/-- Destructure a successful `remove`. -/
theorem remove_eq_some {a : Arena} {p c : Nat} {a2 : Arena}
    (h : a.remove p c = some a2) :
    (a.store c).parent = some p ∧
      a2 = ((a.upd c fun r => { r with parent := none })).upd p
        fun r => { r with children := r.children.erase c } := by
  unfold Arena.remove at h
  by_cases hc : (a.store c).parent = some p
  · rw [if_pos hc] at h
    exact ⟨hc, (Option.some.inj h).symm⟩
  · rw [if_neg hc] at h
    exact Option.noConfusion h

theorem coherent_remove {a : Arena} {p c : Nat} {a2 : Arena}
    (h : Coherent a) (hrm : a.remove p c = some a2) : Coherent a2 := by
  obtain ⟨hpc, ha2⟩ := remove_eq_some hrm
  have hc : c < a.size := by
    by_contra hge
    rw [Arena.store_ge (by omega)] at hpc
    exact Option.noConfusion hpc
  have hp : p < a.size := (h.2 c hc p hpc).1
  subst ha2
  have hcount1 : ((a.store p).children).count c = 1 := (h.2 c hc p hpc).2
  have hcnot : c ∉ ((a.store p).children).erase c := by
    intro hmem
    have hpos := List.count_pos_iff.mpr hmem
    rw [List.count_erase_self, hcount1] at hpos
    omega
  constructor
  · intro i hi j hj
    rw [upd2_size] at hi
    rw [@upd2_children a c p none (fun l => l.erase c) hp hc] at hj
    rw [upd2_size, @upd2_parent a c p none (fun l => l.erase c) hp hc]
    by_cases hip : i = p
    · subst hip
      rw [if_pos rfl] at hj
      have hj2 : j ∈ (a.store i).children := List.mem_of_mem_erase hj
      have hold := h.1 i hi j hj2
      have hjc : j ≠ c := by
        intro hh
        subst hh
        exact hcnot hj
      rw [if_neg hjc]
      exact hold
    · rw [if_neg hip] at hj
      have hold := h.1 i hi j hj
      have hjc : j ≠ c := by
        intro hh
        subst hh
        rw [hold.2] at hpc
        cases hpc
        exact hip rfl
      rw [if_neg hjc]
      exact hold
  · intro j hj
    rw [upd2_size] at hj
    intro i hpi
    rw [@upd2_parent a c p none (fun l => l.erase c) hp hc] at hpi
    rw [upd2_size, @upd2_children a c p none (fun l => l.erase c) hp hc]
    by_cases hjc : j = c
    · subst hjc
      rw [if_pos rfl] at hpi
      cases hpi
    · rw [if_neg hjc] at hpi
      have hold := h.2 j hj i hpi
      refine ⟨hold.1, ?_⟩
      by_cases hip : i = p
      · subst hip
        rw [if_pos rfl, List.count_erase_of_ne hjc]
        exact hold.2
      · rw [if_neg hip]
        exact hold.2

theorem cb_remove {a : Arena} {p c : Nat} {a2 : Arena}
    (hco : Coherent a) (hb : ChildBounds a)
    (hrm : a.remove p c = some a2) : ChildBounds a2 := by
  obtain ⟨hpc, ha2⟩ := remove_eq_some hrm
  have hc : c < a.size := by
    by_contra hge
    rw [Arena.store_ge (by omega)] at hpc
    exact Option.noConfusion hpc
  have hp : p < a.size := (hco.2 c hc p hpc).1
  subst ha2
  intro i hi j hj
  rw [upd2_size] at hi
  rw [upd2_size]
  rw [@upd2_children a c p none (fun l => l.erase c) hp hc i] at hj
  by_cases hip : i = p
  · rw [if_pos hip] at hj
    subst hip
    exact hb i hi j (List.mem_of_mem_erase hj)
  · rw [if_neg hip] at hj
    exact hb i hi j hj

/-- Destructure a successful `insertAt`. -/
theorem insertAt_eq_some {a : Arena} {p c : Nat} {idx : Int} {a2 : Arena}
    (h : a.insertAt p idx c = some a2) :
    (a.store c).parent = none ∧
      a2 = ((a.upd c fun r => { r with parent := some p })).upd p
        fun r => { r with children := Arena.insertList r.children (Arena.normIndex (a.store p).children.length idx).toNat c } := by
  unfold Arena.insertAt at h
  split at h
  · exact Option.noConfusion h
  · split at h
    · exact Option.noConfusion h
    · rename_i hpar
      push_neg at hpar
      exact ⟨hpar, (Option.some.inj h).symm⟩

theorem coherent_insertAt {a : Arena} {p c : Nat} {idx : Int} {a2 : Arena}
    (h : Coherent a) (hp : p < a.size) (hc : c < a.size)
    (hins : a.insertAt p idx c = some a2) : Coherent a2 := by
  obtain ⟨hpar, ha2⟩ := insertAt_eq_some hins
  subst ha2
  refine coherent_link a
    (fun l => Arena.insertList l
      (Arena.normIndex ((a.store p).children.length) idx).toNat c)
    h hp hc hpar ?_ ?_
  · intro j
    exact mem_insertList
  · intro j
    rw [count_insertList]
    by_cases hjc : j = c
    · rw [if_pos hjc.symm, if_pos hjc]
    · rw [if_neg fun hh => hjc hh.symm, if_neg hjc]

theorem cb_insertAt {a : Arena} {p c : Nat} {idx : Int} {a2 : Arena}
    (hb : ChildBounds a) (hp : p < a.size) (hc : c < a.size) (hpc : p < c)
    (hins : a.insertAt p idx c = some a2) : ChildBounds a2 := by
  obtain ⟨hpar, ha2⟩ := insertAt_eq_some hins
  subst ha2
  intro i hi j hj
  rw [upd2_size] at hi
  rw [upd2_size]
  rw [@upd2_children a c p (some p)
    (fun l => Arena.insertList l
      (Arena.normIndex ((a.store p).children.length) idx).toNat c)
    hp hc i] at hj
  by_cases hip : i = p
  · rw [if_pos hip] at hj
    subst hip
    rcases mem_insertList.mp hj with rfl | hj2
    · exact ⟨hpc, hc⟩
    · exact hb i hi j hj2
  · rw [if_neg hip] at hj
    exact hb i hi j hj

theorem insertAt_parent_other {a : Arena} {p c j : Nat} {idx : Int}
    {a2 : Arena} (hp : p < a.size) (hc : c < a.size)
    (hins : a.insertAt p idx c = some a2) (hjc : j ≠ c) :
    (a2.store j).parent = (a.store j).parent := by
  obtain ⟨hpar, ha2⟩ := insertAt_eq_some hins
  subst ha2
  rw [@upd2_parent a c p (some p)
    (fun l => Arena.insertList l
      (Arena.normIndex ((a.store p).children.length) idx).toNat c)
    hp hc j]
  rw [if_neg hjc]

theorem coherent_add {a : Arena} {p c : Nat} {a2 : Arena}
    (h : Coherent a) (hp : p < a.size) (hc : c < a.size)
    (hadd : a.add p c = some a2) : Coherent a2 := by
  obtain ⟨hpar, ha2⟩ := add_eq_some hadd
  subst ha2
  refine coherent_link a (fun l => l ++ [c]) h hp hc hpar ?_ ?_
  · intro j
    rw [List.mem_append]
    simp [or_comm]
  · intro j
    rw [List.count_append, List.count_singleton]
    by_cases hjc : j = c
    · have hbq : (c == j) = true := by simpa using hjc.symm
      rw [hbq, if_pos hjc]
      simp
    · have hbq : (c == j) = false := by simpa using fun hh => hjc hh.symm
      rw [hbq, if_neg hjc]
      simp

theorem cb_add {a : Arena} {p c : Nat} {a2 : Arena}
    (hb : ChildBounds a) (hp : p < a.size) (hc : c < a.size) (hpc : p < c)
    (hadd : a.add p c = some a2) : ChildBounds a2 := by
  obtain ⟨hpar, ha2⟩ := add_eq_some hadd
  subst ha2
  intro i hi j hj
  rw [upd2_size] at hi
  rw [upd2_size]
  rw [@upd2_children a c p (some p) (fun l => l ++ [c]) hp hc i] at hj
  by_cases hip : i = p
  · rw [if_pos hip] at hj
    subst hip
    rcases List.mem_append.mp hj with h1 | h1
    · exact hb i hi j h1
    · rw [List.mem_singleton] at h1
      subst h1
      exact ⟨hpc, hc⟩
  · rw [if_neg hip] at hj
    exact hb i hi j hj

theorem add_size {a : Arena} {p c : Nat} {a2 : Arena}
    (hadd : a.add p c = some a2) : a2.size = a.size := by
  obtain ⟨hh, ha2⟩ := add_eq_some hadd
  subst ha2
  exact upd2_size a c p _ _

theorem add_store_other {a : Arena} {p c j : Nat} {a2 : Arena}
    (hp : p < a.size) (hc : c < a.size) (hadd : a.add p c = some a2)
    (hjp : j ≠ p) (hjc : j ≠ c) : a2.store j = a.store j := by
  obtain ⟨hh, ha2⟩ := add_eq_some hadd
  subst ha2
  have h1 : p < (a.upd c fun r => { r with parent := some p }).size := by
    rw [Arena.size_upd]
    exact hp
  rw [Arena.store_upd_lt h1, if_neg hjp, Arena.store_upd_lt hc, if_neg hjc]

theorem insertAt_size {a : Arena} {p c : Nat} {idx : Int} {a2 : Arena}
    (hins : a.insertAt p idx c = some a2) : a2.size = a.size := by
  obtain ⟨hh, ha2⟩ := insertAt_eq_some hins
  subst ha2
  exact upd2_size a c p _ _

/-- Preservation of a predicate along a successful `Option` fold. -/
theorem foldlM_pres {α σ : Type} {P : σ → Prop} {f : σ → α → Option σ}
    (hstep : ∀ s x s2, P s → f s x = some s2 → P s2) :
    ∀ (l : List α) (s s2 : σ), P s → l.foldlM f s = some s2 → P s2 := by
  intro l
  induction l with
  | nil =>
    intro s s2 hp h
    have h2 : s = s2 := Option.some.inj h
    subst h2
    exact hp
  | cons x l ih =>
    intro s s2 hp h
    rw [foldlM_cons_option, Option.bind_eq_some] at h
    obtain ⟨s1, h1, h2⟩ := h
    exact ih s1 s2 (hstep s x s1 hp h1) h2

/-- The fold of `Node.copy` preserves coherence and allocation order,
never shrinks the arena and never touches pre-existing nodes, given that
the copy of a single node does (the induction hypothesis `ihc`). -/
theorem copy_fold_pres (fuel : Nat)
    (ihc : ∀ (b : Arena) (m : Nat), Coherent b → ChildBounds b →
      Coherent (Arena.copyNode fuel b m).1 ∧
      ChildBounds (Arena.copyNode fuel b m).1 ∧
      b.size < (Arena.copyNode fuel b m).1.size ∧
      (Arena.copyNode fuel b m).2 = b.size ∧
      (∀ j, j < b.size → (Arena.copyNode fuel b m).1.store j = b.store j))
    (nid : Nat) (base : Arena) (hbn : base.size ≤ nid) :
    ∀ (l : List Nat) (acc : Arena),
      Coherent acc → ChildBounds acc → nid < acc.size →
      base.size ≤ acc.size →
      (∀ j, j < base.size → acc.store j = base.store j) →
      Coherent (copyFold fuel nid acc l) ∧
      ChildBounds (copyFold fuel nid acc l) ∧
      acc.size ≤ (copyFold fuel nid acc l).size ∧
      (∀ j, j < base.size →
        (copyFold fuel nid acc l).store j = base.store j) := by
  intro l
  induction l with
  | nil =>
    intro acc h1 h2 h3 h4 h5
    exact ⟨h1, h2, le_refl _, h5⟩
  | cons ch l ihl =>
    intro acc h1 h2 h3 h4 h5
    obtain ⟨c1, c2, c3, c4, c5⟩ := ihc acc ch h1 h2
    cases hadd : (Arena.copyNode fuel acc ch).1.add nid
        (Arena.copyNode fuel acc ch).2 with
    | none =>
      have hred : copyFold fuel nid acc (ch :: l) =
          copyFold fuel nid (Arena.copyNode fuel acc ch).1 l := by
        show copyFold fuel nid (match (Arena.copyNode fuel acc ch).1.add nid
            (Arena.copyNode fuel acc ch).2 with
          | some a4 => a4
          | none => (Arena.copyNode fuel acc ch).1) l = _
        rw [hadd]
      rw [hred]
      obtain ⟨m1, m2, m3, m4⟩ := ihl (Arena.copyNode fuel acc ch).1 c1 c2
        (by omega) (by omega)
        (fun j hj => by rw [c5 j (by omega), h5 j hj])
      exact ⟨m1, m2, by omega, m4⟩
    | some a4 =>
      have hred : copyFold fuel nid acc (ch :: l) =
          copyFold fuel nid a4 l := by
        show copyFold fuel nid (match (Arena.copyNode fuel acc ch).1.add nid
            (Arena.copyNode fuel acc ch).2 with
          | some a4 => a4
          | none => (Arena.copyNode fuel acc ch).1) l = _
        rw [hadd]
      have hpsz : nid < (Arena.copyNode fuel acc ch).1.size := by omega
      have hcsz : (Arena.copyNode fuel acc ch).2 <
          (Arena.copyNode fuel acc ch).1.size := by
        rw [c4]
        exact c3
      have hpc2 : nid < (Arena.copyNode fuel acc ch).2 := by
        rw [c4]
        exact h3
      have k1 := coherent_add c1 hpsz hcsz hadd
      have k2 := cb_add c2 hpsz hcsz hpc2 hadd
      have k3 : a4.size = (Arena.copyNode fuel acc ch).1.size :=
        add_size hadd
      rw [hred]
      obtain ⟨m1, m2, m3, m4⟩ := ihl a4 k1 k2 (by omega) (by omega)
        (fun j hj => by
          rw [add_store_other hpsz hcsz hadd (by omega) (by rw [c4]; omega),
            c5 j (by omega), h5 j hj])
      exact ⟨m1, m2, by omega, m4⟩

/-- `Node.copy` builds a fresh coherent, allocation-ordered subtree: the
result is strictly larger, the returned id is the pre-copy size (the copy
root, still parentless unless attached later), and pre-existing nodes are
untouched. -/
theorem copyNode_inv :
    ∀ (fuel : Nat) (a : Arena) (n : Nat), Coherent a → ChildBounds a →
      Coherent (Arena.copyNode fuel a n).1 ∧
      ChildBounds (Arena.copyNode fuel a n).1 ∧
      a.size < (Arena.copyNode fuel a n).1.size ∧
      (Arena.copyNode fuel a n).2 = a.size ∧
      (∀ j, j < a.size →
        (Arena.copyNode fuel a n).1.store j = a.store j) := by
  intro fuel
  induction fuel with
  | zero =>
    intro a n hco hb
    refine ⟨coherent_alloc hco _ _, childBounds_alloc hb _ _, ?_, rfl, ?_⟩
    · show a.size < (a.alloc (a.store n).name []).1.size
      rw [Arena.alloc_size]
      omega
    · intro j hj
      exact Arena.alloc_store_lt hj _ _
  | succ fuel ih =>
    intro a n hco hb
    have halloc3 : (a.alloc (a.store n).name []).1.size = a.size + 1 :=
      Arena.alloc_size ..
    obtain ⟨m1, m2, m3, m4⟩ := copy_fold_pres fuel ih a.size a (le_refl _)
      (a.store n).children (a.alloc (a.store n).name []).1
      (coherent_alloc hco _ _) (childBounds_alloc hb _ _)
      (by omega) (by omega) (fun j hj => Arena.alloc_store_lt hj _ _)
    refine ⟨m1, m2, ?_, rfl, ?_⟩
    · show a.size < (copyFold fuel a.size (a.alloc (a.store n).name []).1
        (a.store n).children).size
      omega
    · intro j hj
      exact m4 j hj

/-- One inner `Replace.apply` step keeps the arena coherent and
allocation-ordered: the copy is fresh, its root gets the matched node's
parent, and the matched node is then detached. -/
theorem replace_step_pres {copyFuel : Nat} {acc2 : Arena}
    {aNode bNode : Nat} {out : Arena} (hco : Coherent acc2)
    (hb : ChildBounds acc2)
    (hstep : replaceStep copyFuel aNode acc2 bNode = some out) :
    Coherent out ∧ ChildBounds out := by
  unfold replaceStep at hstep
  by_cases hpar0 : (acc2.store aNode).parent = none
  · rw [if_neg (not_not_intro hpar0)] at hstep
    cases hstep
    exact ⟨hco, hb⟩
  · rw [if_pos hpar0] at hstep
    have hasz : aNode < acc2.size := by
      by_contra hge
      rw [Arena.store_ge (by omega)] at hpar0
      exact hpar0 rfl
    obtain ⟨hco3, hb3, hsz3, hcid, hold⟩ :=
      copyNode_inv copyFuel acc2 bNode hco hb
    have hstep1 : (Arena.copyNode copyFuel acc2 bNode).1.replaceWith aNode
        [(Arena.copyNode copyFuel acc2 bNode).2] = some out := hstep
    unfold Arena.replaceWith at hstep1
    rw [hold aNode hasz] at hstep1
    cases hpar : (acc2.store aNode).parent with
    | none => exact absurd hpar hpar0
    | some p =>
      rw [hpar] at hstep1
      have hstep2 : (match Option.bind
          ((Arena.copyNode copyFuel acc2 bNode).1.insertAt p
            ((((Arena.copyNode copyFuel acc2 bNode).1.store p).children.indexOf
              aNode : Nat) : Int)
            (Arena.copyNode copyFuel acc2 bNode).2)
          (fun s => some s) with
        | none => none
        | some a1 => a1.detach aNode) = some out := hstep1
      cases hins : (Arena.copyNode copyFuel acc2 bNode).1.insertAt p
          ((((Arena.copyNode copyFuel acc2 bNode).1.store p).children.indexOf
            aNode : Nat) : Int)
          (Arena.copyNode copyFuel acc2 bNode).2 with
      | none =>
        rw [hins] at hstep2
        have hnone : (none : Option Arena) = some out := hstep2
        exact Option.noConfusion hnone
      | some a4 =>
        rw [hins] at hstep2
        have hdet : a4.detach aNode = some out := hstep2
        obtain ⟨hp2, hcnt⟩ := hco.2 aNode hasz p hpar
        have hp3 : p < (Arena.copyNode copyFuel acc2 bNode).1.size := by
          omega
        have hc3 : (Arena.copyNode copyFuel acc2 bNode).2 <
            (Arena.copyNode copyFuel acc2 bNode).1.size := by omega
        have hpc3 : p < (Arena.copyNode copyFuel acc2 bNode).2 := by omega
        have hco4 := coherent_insertAt hco3 hp3 hc3 hins
        have hb4 := cb_insertAt hb3 hp3 hc3 hpc3 hins
        have hpar4 : (a4.store aNode).parent = some p := by
          rw [insertAt_parent_other hp3 hc3 hins (by omega),
            hold aNode hasz, hpar]
        unfold Arena.detach at hdet
        rw [hpar4] at hdet
        have hrm : a4.remove p aNode = some out := hdet
        exact ⟨coherent_remove hco4 hrm, cb_remove hco4 hb4 hrm⟩

/-- `Replace.apply` (the only implemented transform that mutates the
tree) preserves coherence and allocation order on any arena that has
them. -/
theorem replaceApply_pres (copyFuel origId newId : Nat) (ctx : MCtx) :
    ∀ (b b2 : Arena), Coherent b → ChildBounds b →
      replaceApply copyFuel origId newId ctx b = some b2 →
      Coherent b2 ∧ ChildBounds b2 := by
  intro b b2 hco hb happ
  have happ2 : ((ctx.get origId).getD []).foldlM
      (replaceOuter copyFuel newId ctx) b = some b2 := happ
  refine @foldlM_pres Nat Arena (fun s => Coherent s ∧ ChildBounds s)
    (replaceOuter copyFuel newId ctx) ?_ ((ctx.get origId).getD [])
    b b2 ⟨hco, hb⟩ happ2
  intro s x s2 hp h
  unfold replaceOuter at h
  by_cases hpn : (s.store x).parent = none
  · rw [if_pos hpn] at h
    exact Option.noConfusion h
  · rw [if_neg hpn] at h
    exact foldlM_pres
      (fun t y t2 hq hy => replace_step_pres hq.1 hq.2 hy)
      ((ctx.get newId).getD []) s s2 hp h

/-- Any tree produced by `parseLines` is coherent (every non-root node
has exactly one parent whose children list holds it exactly once),
allocation-ordered, and therefore acyclic. -/
theorem parseLines_wellformed (input : List (List Char)) (a : Arena)
    (root : Nat) (hp : parseLines input = some (a, root)) :
    Coherent a ∧ ChildBounds a ∧ Acyclic a := by
  unfold parseLines at hp
  rw [Option.map_eq_some'] at hp
  obtain ⟨st2, hfold, hpair⟩ := hp
  injection hpair with h1 h2
  obtain ⟨hco, hb, hrest⟩ :=
    (parseLines_fold (parseBlocks notaBlocks input) _ st2
      (parseBlocks_wb input) hfold plinv_init).1
  rw [← h1]
  exact ⟨hco, hb, acyclic_of_cb hco hb⟩

/-- C9 (amended): trees produced by parsing are coherent — every child
link is mirrored by the parent pointer and every parented node is listed
exactly once by its parent — allocation-ordered and acyclic; the
`Replace` transform (the only implemented transform that mutates the
tree; `Remove.apply` only prints) preserves coherence and acyclicity on
any coherent allocation-ordered tree; and the mutating operations
enforce their preconditions fail-fast (add and insert reject an
already-parented node, remove rejects a node whose parent is not the
given node) and on success preserve single-parent coherence — though not
acyclicity in general: see the counterexample, where adding a parentless
ancestor under its own descendant builds a cycle. -/
theorem c9_amended :
    (∀ (input : List (List Char)) (a : Arena) (root : Nat),
      parseLines input = some (a, root) →
        Coherent a ∧ ChildBounds a ∧ Acyclic a) ∧
    (∀ (copyFuel origId newId : Nat) (ctx : MCtx) (b b2 : Arena),
      Coherent b → ChildBounds b →
        replaceApply copyFuel origId newId ctx b = some b2 →
        Coherent b2 ∧ Acyclic b2) ∧
    (∀ (a : Arena) (p c : Nat), Coherent a → p < a.size → c < a.size →
      ((a.store c).parent ≠ none → a.add p c = none) ∧
      (∀ a', a.add p c = some a' → Coherent a') ∧
      (∀ idx : Int, (a.store c).parent ≠ none →
        a.insertAt p idx c = none) ∧
      (∀ idx a', a.insertAt p idx c = some a' → Coherent a') ∧
      ((a.store c).parent ≠ some p → a.remove p c = none) ∧
      (∀ a', a.remove p c = some a' → Coherent a')) := by
  refine ⟨parseLines_wellformed, ?_, ?_⟩
  · intro copyFuel origId newId ctx b b2 hco hb happ
    obtain ⟨hco2, hb2⟩ :=
      replaceApply_pres copyFuel origId newId ctx b b2 hco hb happ
    exact ⟨hco2, acyclic_of_cb hco2 hb2⟩
  · intro a p c h hp hc
    refine ⟨?_, ?_, ?_, ?_, ?_, ?_⟩
    · intro hpar
      unfold Arena.add
      rw [if_pos hpar]
    · intro a' ha'
      exact coherent_add h hp hc ha'
    · intro idx hpar
      unfold Arena.insertAt
      split
      all_goals
        first
          | rfl
          | (rename_i hnp; exact absurd hpar hnp)
    · intro idx a' ha'
      exact coherent_insertAt h hp hc ha'
    · intro hpar
      unfold Arena.remove
      rw [if_neg hpar]
    · intro a' ha'
      exact coherent_remove h ha'

/-- C9 (witness): the amended theorem applied concretely — the parsed
tree of `"- a"` is coherent, allocation-ordered and acyclic, the C8
`Replace` run keeps coherence and acyclicity, and the two-root arena of
the counterexample exercises the operation clauses with parent 0 and
child 1. -/
theorem c9_witness :
    (Coherent c1Arena ∧ ChildBounds c1Arena ∧ Acyclic c1Arena) ∧
    (Coherent c8After ∧ Acyclic c8After) ∧
    (((c9Start.store 1).parent ≠ none → c9Start.add 0 1 = none) ∧
    (∀ a', c9Start.add 0 1 = some a' → Coherent a') ∧
    (∀ idx : Int, (c9Start.store 1).parent ≠ none →
      c9Start.insertAt 0 idx 1 = none) ∧
    (∀ idx a', c9Start.insertAt 0 idx 1 = some a' → Coherent a') ∧
    ((c9Start.store 1).parent ≠ some 0 → c9Start.remove 0 1 = none) ∧
    (∀ a', c9Start.remove 0 1 = some a' → Coherent a')) :=
  ⟨c9_amended.1 c1Input c1Arena 0 rfl,
   c9_amended.2.1 5 10 11 c8Ctx c8Tree c8After
     (by constructor <;> decide) (by decide) rfl,
   c9_amended.2.2 c9Start 0 1 (by constructor <;> decide) (by decide)
     (by decide)⟩

/-- C1 (amended): when the full pipeline yields a tree at all (it does
exactly when no inline span is recognized — a span crashes the builder),
the concatenated contents of the `#text` nodes in document order equal the
concatenated content of the emitted non-whitespace blocks; and that
content is the original input with, per line, either nothing changed, or
the matched start prefix consumed (removed, or rewritten by the prefix's
`extract` function — e.g. replaced by equal-width spaces), or the line
truncated at a matched end delimiter; the content of whitespace-only
(`Empty`) blocks is dropped entirely.  No other content is dropped. -/
theorem c1_amended (input : List (List Char)) (a : Arena) (root F : Nat)
    (hp : parseLines input = some (a, root)) (hF : a.size ≤ F) :
    PTree.texts (toPTree a F root) = keptContent input ∧
      ∃ kept : List (List Char), List.Forall₂ LineKept input kept ∧
        allContent input = kept.flatten :=
  ⟨c1_amended_main input a root hp F hF, allContent_account input⟩

/-- C1 (amended), witness: the concrete run on `"- a\n"`. -/
theorem c1_witness :
    parseLines c1Input = some (c1Arena, 0) ∧ c1Arena.size ≤ 4 ∧
      (PTree.texts (toPTree c1Arena 4 0) = keptContent c1Input ∧
        ∃ kept : List (List Char), List.Forall₂ LineKept c1Input kept ∧
          allContent c1Input = kept.flatten) :=
  ⟨rfl, by decide, c1_amended c1Input c1Arena 0 4 rfl (by decide)⟩

/-- C1 (counterexample): for the input `"- a\n"` the pipeline's only text
node holds `"  a\n"` — the consumed `"- "` marker is replaced by two
spaces (the prefix's `extract`), not removed — and `"  a\n"` cannot be
obtained from `"- a\n"` by deleting any bytes at all, so the concatenated
text content is not the original with delimiter bytes removed. -/
theorem c1_counterexample :
    (parseLines c1Input).map (fun ar => PTree.texts (toPTree ar.1 6 ar.2)) =
      some (s2l "  a\n") ∧
    ¬ List.Sublist (s2l "  a\n") (s2l "- a\n") := by
  refine ⟨rfl, ?_⟩
  intro h
  have hc := h.count_le ' '
  revert hc
  decide

end Nota
